import Mathlib

/-!
Verification development for folly's thread-local registry core
(`folly/detail/ThreadLocalDetail.cpp`): the handle-id registry
(`StaticMetaBase::allocate` / `destroy`), the per-thread growable slot table
and its growth (`StaticMetaBase::reserve`, `get`), and the two destruction
sweeps (`StaticMetaBase::onThreadExit` and the cross-thread sweep inside
`destroy`).

The embedding is sequential: each registry operation is an atomic state
transition (the C++ code brackets the corresponding mutations with the one
registry mutex).  Machine integers: ids and `nextId_` are `uint32_t` in the
source, so id arithmetic is carried out modulo `2 ^ 32`; capacities are
`size_t` and the capacity formula's `idval + 5` is 32-bit arithmetic, modelled
with an explicit `% 2 ^ 32`.
-/

/-- Sentinel for an unassigned handle id.  The source's `kEntryIDInvalid`
(declared in `ThreadLocalDetail.h`) is `uint32_t`'s max value, as the comment
in `StaticMetaBase::get` records. -/
def kEntryIDInvalid : Nat := 2 ^ 32 - 1

/-- Destruction mode passed to a slot's deleter (`TLPDestructionMode`). -/
inductive TLPDestructionMode where
  | THIS_THREAD
  | ALL_THREADS
deriving DecidableEq, Repr

/-- One slot of a thread's element table (`ElementWrapper`): a value pointer
(`none` models `nullptr`), the deleter pointer and the `ownsDeleter` flag,
which are exactly the three fields `destroy` clears. -/
structure ElementWrapper where
  ptr : Option Nat
  deleter1 : Option Nat
  ownsDeleter : Bool
deriving DecidableEq, Repr

/-- A zero-initialized slot: all fields cleared. -/
def emptyElementWrapper : ElementWrapper :=
  { ptr := none, deleter1 := none, ownsDeleter := false }

/-- A thread's table (`ThreadEntry`): its element array (a list whose length
is the capacity while the storage is live, `[]` once freed), the recorded
`elementsCapacity`, and whether the `meta` back-pointer is set.  The intrusive
`next` / `prev` links are represented by the live list of the surrounding
state, not as fields. -/
structure ThreadEntry where
  elements : List ElementWrapper
  elementsCapacity : Nat
  meta : Bool
deriving DecidableEq, Repr

/-- The registry (`StaticMetaBase`): the monotone id counter (starts at 1),
the pool of released ids (a `std::vector` used as a stack at its back), and
the linked list of live thread tables headed by `head_`. -/
structure StaticMetaBase where
  nextId_ : Nat
  freeIds_ : List Nat
  threads : List ThreadEntry
deriving DecidableEq, Repr

/-- `StaticMetaBase::allocate(ent)`.  Takes the registry and the handle's
current `EntryID` value; returns the issued id, the updated registry, and the
handle's new value (the source stores it with `ent->value.exchange(id)`).
If the handle already carries a valid id it is returned unchanged; otherwise
the id is popped from the back of `freeIds_`, or taken from `nextId_++`
(`uint32_t` increment, hence the `% 2 ^ 32`). -/
def allocate (m : StaticMetaBase) (v : Nat) : Nat × StaticMetaBase × Nat :=
  if v ≠ kEntryIDInvalid then
    (v, m, v)
  else
    match m.freeIds_.getLast? with
    | some id => (id, { m with freeIds_ := m.freeIds_.dropLast }, id)
    | none => (m.nextId_, { m with nextId_ := (m.nextId_ + 1) % 2 ^ 32 }, m.nextId_)

/-- The scan condition of `destroy`'s loop over live tables:
`id < e->elementsCapacity && e->elements[id].ptr`. -/
def destroyHit (id : Nat) (e : ThreadEntry) : Bool :=
  decide (id < e.elementsCapacity) && (e.elements.getD id emptyElementWrapper).ptr.isSome

/-- Clearing one slot, as `destroy` does under the lock:
`ptr = nullptr; deleter1 = nullptr; ownsDeleter = false`. -/
def clearSlot (e : ThreadEntry) (id : Nat) : ThreadEntry :=
  { e with elements := e.elements.set id emptyElementWrapper }

/-- `StaticMetaBase::destroy(ent)` (the non-throwing-disposer semantics; the
`try` / `catch` boundary is modelled separately by `destroyTop`).  Swaps the
handle's id to the invalid sentinel; if it was already invalid returns with
nothing changed.  Otherwise captures the occupied slot at that id of every
live table, clears those slots, pushes the id onto the back of `freeIds_`,
and (after the lock) disposes each captured element with `ALL_THREADS` mode;
the returned list is that disposal log, in order.  The result is
(updated registry, new handle value, disposal log). -/
def destroy (m : StaticMetaBase) (v : Nat) :
    StaticMetaBase × Nat × List (ElementWrapper × TLPDestructionMode) :=
  if v = kEntryIDInvalid then
    (m, kEntryIDInvalid, [])
  else
    ({ m with
        freeIds_ := m.freeIds_ ++ [v],
        threads := m.threads.map (fun e => if destroyHit v e then clearSlot e v else e) },
     kEntryIDInvalid,
     (m.threads.filter (destroyHit v)).map
       (fun e => (e.elements.getD v emptyElementWrapper, TLPDestructionMode.ALL_THREADS)))

/-- The growth formula of `StaticMetaBase::reserve`:
`static_cast<size_t>((idval + 5) * 1.7)`.  `idval` is `uint32_t`, so
`idval + 5` wraps modulo `2 ^ 32` before the multiplication.  The
multiplication is carried out in `double`; for every `uint32_t` input the
rounding error of the `double` product is far below the distance to the next
integer boundary (the literal `1.7` rounds down by about `2.6e-17`
relatively, and products stay below `2 ^ 33`, where a half-ulp is about
`1e-6`, while exact products are either integers or at fractional distance
at least `0.1`), so the truncation equals the exact `* 17 / 10` floor
computed here. -/
def newCapacityFor (idval : Nat) : Nat :=
  ((idval + 5) % 2 ^ 32) * 17 / 10

/-- Growth of one thread's table, following `StaticMetaBase::reserve` after
`getOrAllocate` produced `idval`.  `usingJEMalloc` selects the jemalloc
branch, where `realCap` models `nallocx(newCapacity * sizeof ...) / sizeof`
(jemalloc's real usable capacity, at least what was asked for) and `inPlace`
models whether the `xallocx` in-place expansion succeeded.  On every path the
new cells are zero-initialized (`MALLOCX_ZERO` / `calloc`) and on the copy
path the old contents are copied into the matching prefix under the lock.
If no growth is needed (`prevCapacity > idval`) the table is untouched. -/
def reserveTable (usingJEMalloc : Bool) (realCap : Nat → Nat) (inPlace : Bool)
    (te : ThreadEntry) (idval : Nat) : ThreadEntry :=
  let prevCapacity := te.elementsCapacity
  if prevCapacity > idval then
    te
  else
    let newCapacity0 := newCapacityFor idval
    let newCapacity := if usingJEMalloc then realCap newCapacity0 else newCapacity0
    let elements :=
      if usingJEMalloc && inPlace then
        te.elements ++ List.replicate (newCapacity - prevCapacity) emptyElementWrapper
      else
        te.elements.take prevCapacity ++
          List.replicate (newCapacity - prevCapacity) emptyElementWrapper
    { te with elements := elements, elementsCapacity := newCapacity }

/-! ## The thread-exit sweep (`StaticMetaBase::onThreadExit`)

`dispose` itself is declared on `ElementWrapper` in `ThreadLocal.h`, which is
not part of this repository snapshot.  Modelled from the spec: a disposer is
a callable run on an occupied slot; during the thread-exit sweep it may
itself populate other slots of the same table ("a disposer for slot A
populating slot B"), which the source's comment at `onThreadExit` also
records as the reason for the repeat-until-quiescent loop.  The parameter
`eff` gives, for each slot index, the writes (index, new slot contents) its
disposer performs into the table; after the disposer runs, `dispose`'s
`cleanup()` clears the disposed slot.  Growth during the sweep is not
modelled: writes target indices below the current capacity. -/

/-- Apply a disposer's writes to the table, in order. -/
def applyWrites (t : List ElementWrapper) (ws : List (Nat × ElementWrapper)) :
    List ElementWrapper :=
  ws.foldl (fun acc w => acc.set w.1 w.2) t

/-- One pass of the `FOR_EACH_RANGE` loop of `onThreadExit`, from index `i`
with `r` indices left to visit: each occupied slot is disposed with
`THIS_THREAD` mode (logged), its disposer's writes applied, and the slot
cleared.  Returns the table after the pass and the pass's disposal log. -/
def sweepPass (eff : Nat → List (Nat × ElementWrapper)) :
    List ElementWrapper → Nat → Nat →
      List ElementWrapper × List (Nat × TLPDestructionMode)
  | t, _, 0 => (t, [])
  | t, i, r + 1 =>
    if (t.getD i emptyElementWrapper).ptr.isSome then
      ((sweepPass eff ((applyWrites t (eff i)).set i emptyElementWrapper) (i + 1) r).1,
       (i, TLPDestructionMode.THIS_THREAD) ::
         (sweepPass eff ((applyWrites t (eff i)).set i emptyElementWrapper) (i + 1) r).2)
    else
      sweepPass eff t (i + 1) r

/-- The `for (bool shouldRun = true; shouldRun;)` loop: full passes repeat
until a pass disposes nothing.  `fuel` bounds the number of passes (the C++
loop does not terminate if disposers keep repopulating forever); `none`
means the fuel ran out before a quiescent pass. -/
def sweepLoop (eff : Nat → List (Nat × ElementWrapper)) :
    Nat → List ElementWrapper →
      Option (List ElementWrapper × List (Nat × TLPDestructionMode))
  | 0, _ => none
  | fuel + 1, t =>
    if ((sweepPass eff t 0 t.length).2).isEmpty then
      some (sweepPass eff t 0 t.length)
    else
      match sweepLoop eff fuel (sweepPass eff t 0 t.length).1 with
      | none => none
      | some q => some (q.1, (sweepPass eff t 0 t.length).2 ++ q.2)

/-- `StaticMetaBase::onThreadExit`, after the table has been delisted: the
repeated this-thread sweep, then `free(threadEntry->elements)`,
`elements = nullptr`, `meta = nullptr` (the capacity field is not reset by
the source).  Returns the final `ThreadEntry` and the disposal log. -/
def onThreadExit (eff : Nat → List (Nat × ElementWrapper)) (fuel : Nat)
    (te : ThreadEntry) : Option (ThreadEntry × List (Nat × TLPDestructionMode)) :=
  match sweepLoop eff fuel te.elements with
  | none => none
  | some p =>
    some ({ elements := [], elementsCapacity := te.elementsCapacity, meta := false }, p.2)

/-- Indices of the occupied slots of a table, in increasing order. -/
def occupiedIdx (t : List ElementWrapper) : List Nat :=
  (List.range t.length).filter (fun j => (t.getD j emptyElementWrapper).ptr.isSome)

/-! ## Exception boundaries

`destroy` wraps its whole body in `try ... catch (...)` that logs a warning
and discards the failure; `onThreadExit` has no such handler.  Failures are
modelled with `Except`: a disposer for which `thr` holds throws when invoked.
The error payload is the position of the throwing disposer. -/

/-- The `for (ElementWrapper& elem : elements) elem.dispose(ALL_THREADS)`
loop of `destroy`, with throwing deleters: disposal events before the first
throw have happened; the throw aborts the loop. -/
def disposeLoopE (thr : ElementWrapper → Bool) :
    List ElementWrapper → Except Nat (List (ElementWrapper × TLPDestructionMode))
  | [] => .ok []
  | e :: rest =>
    if thr e then .error 0
    else
      match disposeLoopE thr rest with
      | .ok evs => .ok ((e, TLPDestructionMode.ALL_THREADS) :: evs)
      | .error k => .error (k + 1)

/-- The body of `destroy`'s `try` block: the locked scan-and-clear section
(which runs no user code), then the disposal loop.  A thrown failure escapes
with the already-mutated registry state and handle value as they stand at
the `catch`. -/
def destroyBody (thr : ElementWrapper → Bool) (m : StaticMetaBase) (v : Nat) :
    Except (StaticMetaBase × Nat)
      (StaticMetaBase × Nat × List (ElementWrapper × TLPDestructionMode)) :=
  match disposeLoopE thr ((destroy m v).2.2.map Prod.fst) with
  | .ok evs => .ok ((destroy m v).1, (destroy m v).2.1, evs)
  | .error _ => .error ((destroy m v).1, (destroy m v).2.1)

/-- `destroy` as seen by its caller: the `catch (...)` boundary logs a
warning (the returned `Bool`) and discards the failure, so the call always
returns normally (`Except.ok`). -/
def destroyTop (thr : ElementWrapper → Bool) (m : StaticMetaBase) (v : Nat) :
    Except Nat (StaticMetaBase × Nat × Bool) :=
  match destroyBody thr m v with
  | .ok r => .ok (r.1, r.2.1, false)
  | .error e => .ok (e.1, e.2, true)

/-- One pass of the thread-exit sweep with throwing disposers (repopulation
effects are studied on the non-throwing variant `sweepPass`).  A throw
escapes the pass. -/
def sweepPassE (thr : ElementWrapper → Bool) :
    List ElementWrapper → Nat → Nat → Except Nat (List ElementWrapper × Bool)
  | t, _, 0 => .ok (t, false)
  | t, i, r + 1 =>
    if (t.getD i emptyElementWrapper).ptr.isSome then
      if thr (t.getD i emptyElementWrapper) then .error i
      else
        match sweepPassE thr (t.set i emptyElementWrapper) (i + 1) r with
        | .ok p => .ok (p.1, true)
        | .error k => .error k
    else
      sweepPassE thr t (i + 1) r

/-- The repeat-until-quiescent loop with throwing disposers.  `ok none`
means the fuel ran out; a disposer failure is `error` and escapes. -/
def sweepLoopE (thr : ElementWrapper → Bool) :
    Nat → List ElementWrapper → Except Nat (Option (List ElementWrapper))
  | 0, _ => .ok none
  | fuel + 1, t =>
    match sweepPassE thr t 0 t.length with
    | .error k => .error k
    | .ok (t2, true) => sweepLoopE thr fuel t2
    | .ok (t2, false) => .ok (some t2)

/-- `onThreadExit` with throwing disposers: the source has no `try` around
the sweep, so a disposer failure propagates out of the function. -/
def onThreadExitE (thr : ElementWrapper → Bool) (fuel : Nat) (te : ThreadEntry) :
    Except Nat (Option ThreadEntry) :=
  match sweepLoopE thr fuel te.elements with
  | .error k => .error k
  | .ok none => .ok none
  | .ok (some _) =>
    .ok (some { elements := [], elementsCapacity := te.elementsCapacity, meta := false })

/-! ## Reachable states

The whole system: the registry's id state, the declared handles' `EntryID`
values, the per-thread tables (`none` once the thread exited, or never
created), and the registry's intrusive live list, held as indices into
`tables`.  Operations are the registry entry points; indices out of range
make an operation a no-op so that every operation is total.  The growth path
is instantiated with the `calloc` branch of `reserve` (the jemalloc branch
differs only in possibly rounding the capacity up further). -/

structure Sys where
  nextId_ : Nat
  freeIds_ : List Nat
  handles : List Nat
  tables : List (Option ThreadEntry)
  live : List Nat
deriving DecidableEq, Repr

/-- The initial state of a registry: `nextId_(1)`, no released ids, no
handles, no tables. -/
def initSys : Sys :=
  { nextId_ := 1, freeIds_ := [], handles := [], tables := [], live := [] }

/-- The `EntryID` value of handle `i` (reads out of range as the invalid
sentinel). -/
def handleVal (s : Sys) (i : Nat) : Nat :=
  s.handles.getD i kEntryIDInvalid

/-- `destroy`'s locked scan over the live list, on the heap of tables:
clear the slot at `id` of every live table the scan condition hits. -/
def sysClear (id : Nat) (tables : List (Option ThreadEntry)) (live : List Nat) :
    List (Option ThreadEntry) :=
  live.foldl
    (fun tbls t =>
      match tbls.getD t none with
      | none => tbls
      | some e => if destroyHit id e then tbls.set t (some (clearSlot e id)) else tbls)
    tables

/-- `allocate` applied to handle `h` of the system state. -/
def allocStep (s : Sys) (h : Nat) : Sys :=
  if h < s.handles.length then
    if s.handles.getD h kEntryIDInvalid ≠ kEntryIDInvalid then s
    else
      { s with
          nextId_ :=
            (allocate ⟨s.nextId_, s.freeIds_, []⟩ (s.handles.getD h kEntryIDInvalid)).2.1.nextId_,
          freeIds_ :=
            (allocate ⟨s.nextId_, s.freeIds_, []⟩ (s.handles.getD h kEntryIDInvalid)).2.1.freeIds_,
          handles :=
            s.handles.set h
              (allocate ⟨s.nextId_, s.freeIds_, []⟩ (s.handles.getD h kEntryIDInvalid)).2.2 }
  else s

/-- The id `allocate` would return for handle `h` in state `s`. -/
def allocResult (s : Sys) (h : Nat) : Nat :=
  (allocate ⟨s.nextId_, s.freeIds_, []⟩ (s.handles.getD h kEntryIDInvalid)).1

/-- The registry operations: declaring a variable (a fresh handle), the
handle-facing `allocate` and `destroy`, a thread's first touch of the
category (a fresh capacity-0 table, created by the thread-entry factory and
not yet in the live list), `reserve` by thread `t` for handle `h`, and the
thread-exit path. -/
inductive Op where
  | newHandle
  | alloc (h : Nat)
  | destroyOp (h : Nat)
  | newThread
  | reserveOp (t h : Nat)
  | exitOp (t : Nat)
deriving DecidableEq, Repr

/-- One atomic registry operation. -/
def applyOp (s : Sys) : Op → Sys
  | .newHandle => { s with handles := s.handles ++ [kEntryIDInvalid] }
  | .alloc h => allocStep s h
  | .destroyOp h =>
    if h < s.handles.length then
      if s.handles.getD h kEntryIDInvalid = kEntryIDInvalid then s
      else
        { s with
            handles := s.handles.set h kEntryIDInvalid,
            freeIds_ := s.freeIds_ ++ [s.handles.getD h kEntryIDInvalid],
            tables := sysClear (s.handles.getD h kEntryIDInvalid) s.tables s.live }
    else s
  | .newThread =>
    { s with tables := s.tables ++ [some { elements := [], elementsCapacity := 0, meta := true }] }
  | .reserveOp t h =>
    match s.tables.getD t none with
    | none => s
    | some te =>
      if h < s.handles.length then
        if te.elementsCapacity > handleVal (allocStep s h) h then allocStep s h
        else
          { allocStep s h with
              tables :=
                (allocStep s h).tables.set t
                  (some (reserveTable false (fun k => k) false te (handleVal (allocStep s h) h))),
              live :=
                if te.elementsCapacity = 0 then (allocStep s h).live ++ [t]
                else (allocStep s h).live }
      else s
  | .exitOp t =>
    match s.tables.getD t none with
    | none => s
    | some _ => { s with live := s.live.erase t, tables := s.tables.set t none }

/-- Run a sequence of operations. -/
def applyOps (s : Sys) (ops : List Op) : Sys :=
  ops.foldl applyOp s

/-- Pairwise distinctness of ids among currently-assigned handles: no two
distinct handles simultaneously hold the same valid id. -/
def IdsDistinct (s : Sys) : Prop :=
  ∀ i j : Nat, i ≠ j → handleVal s i ≠ kEntryIDInvalid → handleVal s j ≠ kEntryIDInvalid →
    handleVal s i ≠ handleVal s j

/-- The id-bookkeeping invariant: distinct assigned ids, all assigned and
pooled ids in `[1, nextId_)`, the pool duplicate-free and disjoint from the
assigned ids. -/
def IdInv (s : Sys) : Prop :=
  IdsDistinct s ∧
  (∀ i, handleVal s i ≠ kEntryIDInvalid → 1 ≤ handleVal s i ∧ handleVal s i < s.nextId_) ∧
  (∀ id, id ∈ s.freeIds_ → 1 ≤ id ∧ id < s.nextId_) ∧
  (∀ id, id ∈ s.freeIds_ → ∀ i, handleVal s i ≠ id) ∧
  s.freeIds_.Nodup ∧ 1 ≤ s.nextId_

/-- The live-set invariant: the live list is duplicate-free and holds
exactly the indices of the existing tables of positive capacity. -/
def LiveInv (s : Sys) : Prop :=
  s.live.Nodup ∧
  ∀ t : Nat, (∃ te, s.tables.getD t none = some te ∧ 0 < te.elementsCapacity) ↔ t ∈ s.live

/-- A run of `n` declare-then-allocate pairs, each on the handle it just
declared: the trace that exercises the fresh-id path of `allocate` `n`
times. -/
def traceFresh : Nat → List Op
  | 0 => []
  | n + 1 => traceFresh n ++ [Op.newHandle, Op.alloc n]

/-! ## Concrete sample inputs used by the evaluation witnesses -/

/-- Default `ThreadEntry` used by list reads. -/
def emptyThreadEntry : ThreadEntry :=
  { elements := [], elementsCapacity := 0, meta := false }

/-- A table whose slot 1 is occupied. -/
def sampleThread1 : ThreadEntry :=
  { elements := [emptyElementWrapper, { ptr := some 5, deleter1 := some 7, ownsDeleter := false }],
    elementsCapacity := 2, meta := true }

/-- A capacity-1 table: id 1 is outside its capacity. -/
def sampleThread2 : ThreadEntry :=
  { elements := [{ ptr := some 3, deleter1 := some 4, ownsDeleter := true }],
    elementsCapacity := 1, meta := true }

/-- A registry with the two sample tables live. -/
def sampleMeta : StaticMetaBase :=
  { nextId_ := 4, freeIds_ := [], threads := [sampleThread1, sampleThread2] }

/-- Disposer effects where the disposer of slot 0 populates slot 2. -/
def effW : Nat → List (Nat × ElementWrapper) :=
  fun i =>
    if i = 0 then [(2, { ptr := some 9, deleter1 := some 9, ownsDeleter := false })] else []

/-- A three-slot table whose slot 0 is occupied and slots 1, 2 are empty. -/
def teW2 : ThreadEntry :=
  { elements := [{ ptr := some 1, deleter1 := some 1, ownsDeleter := false },
                 emptyElementWrapper, emptyElementWrapper],
    elementsCapacity := 3, meta := true }

/-- The table `onThreadExit` hands back for `teW2`: storage freed, registry
back-reference cleared. -/
def teW2post : ThreadEntry :=
  { elements := [], elementsCapacity := 3, meta := false }

/-- The disposal log of `onThreadExit effW _ teW2`: slot 0, then the slot 2
its disposer populated, both in this-thread mode. -/
def logW2 : List (Nat × TLPDestructionMode) :=
  [(0, TLPDestructionMode.THIS_THREAD), (2, TLPDestructionMode.THIS_THREAD)]

/-- Declare three handles and allocate each: ids 1, 2, 3. -/
def opsA : List Op :=
  [Op.newHandle, Op.alloc 0, Op.newHandle, Op.alloc 1, Op.newHandle, Op.alloc 2]

/-- Then destroy the second handle (releasing id 2) and declare a fourth. -/
def opsB : List Op :=
  opsA ++ [Op.destroyOp 1, Op.newHandle]


/-! ## List access helpers -/

theorem getD_append_left {α : Type} (l₁ l₂ : List α) (i : Nat) (d : α)
    (h : i < l₁.length) : (l₁ ++ l₂).getD i d = l₁.getD i d := by
  rw [List.getD_eq_getElem?_getD, List.getD_eq_getElem?_getD, List.getElem?_append, if_pos h]

theorem getD_append_right {α : Type} (l₁ l₂ : List α) (i : Nat) (d : α)
    (h : l₁.length ≤ i) : (l₁ ++ l₂).getD i d = l₂.getD (i - l₁.length) d := by
  rw [List.getD_eq_getElem?_getD, List.getD_eq_getElem?_getD, List.getElem?_append,
    if_neg (by omega)]

theorem getD_replicate {α : Type} (n i : Nat) (a d : α) (h : i < n) :
    (List.replicate n a).getD i d = a := by
  rw [List.getD_eq_getElem?_getD, List.getElem?_replicate, if_pos h]
  rfl

theorem getD_set_self {α : Type} (l : List α) (i : Nat) (a d : α) (h : i < l.length) :
    (l.set i a).getD i d = a := by
  rw [List.getD_eq_getElem?_getD, List.getElem?_set_self h]
  rfl

theorem getD_set_ne {α : Type} (l : List α) (i j : Nat) (a d : α) (h : i ≠ j) :
    (l.set i a).getD j d = l.getD j d := by
  rw [List.getD_eq_getElem?_getD, List.getD_eq_getElem?_getD, List.getElem?_set_ne h]

theorem getD_map_lt {α β : Type} (f : α → β) (l : List α) (i : Nat) (d : β) (d' : α)
    (h : i < l.length) : (l.map f).getD i d = f (l.getD i d') := by
  rw [List.getD_eq_getElem?_getD, List.getD_eq_getElem?_getD, List.getElem?_map,
    List.getElem?_eq_getElem h]
  rfl

theorem getD_concat_length {α : Type} (l : List α) (a d : α) :
    (l ++ [a]).getD l.length d = a := by
  rw [List.getD_eq_getElem?_getD, List.getElem?_concat_length]
  rfl

theorem set_concat_length {α : Type} (l : List α) (a b : α) :
    (l ++ [a]).set l.length b = l ++ [b] := by
  rw [List.set_append, if_neg (by omega)]
  simp

/-- A slot read as occupied is a genuine in-range read: out-of-range reads
return the zero-initialized default, which is empty. -/
theorem lt_length_of_getD_occupied (l : List ElementWrapper) (i : Nat)
    (h : (l.getD i emptyElementWrapper).ptr.isSome = true) : i < l.length := by
  by_contra hge
  rw [List.getD_eq_default l emptyElementWrapper (by omega)] at h
  simp [emptyElementWrapper] at h

/-! ## C1: destroy -/

/-- C1: `destroy(handle)` first swaps the handle's id to the invalid
sentinel; if it was already invalid it is a no-op that leaves the registry
and every table unchanged.  Otherwise, for every live table whose capacity
exceeds the id and whose slot at the id is occupied, the slot's contents
are captured and the slot is reset to empty (pointer and deleter cleared),
every other slot and every other table being untouched; the captured
elements are each disposed exactly once in all-threads mode (the returned
log), and the id is returned to the free-id pool. -/
theorem destroy_correct (m : StaticMetaBase) (v : Nat) :
    (v = kEntryIDInvalid → destroy m v = (m, kEntryIDInvalid, [])) ∧
    (v ≠ kEntryIDInvalid →
      (destroy m v).2.1 = kEntryIDInvalid ∧
      (destroy m v).1.nextId_ = m.nextId_ ∧
      (destroy m v).1.freeIds_ = m.freeIds_ ++ [v] ∧
      (destroy m v).1.threads.length = m.threads.length ∧
      (∀ k, k < m.threads.length →
        ((destroy m v).1.threads.getD k emptyThreadEntry).elementsCapacity
            = (m.threads.getD k emptyThreadEntry).elementsCapacity ∧
        ((destroy m v).1.threads.getD k emptyThreadEntry).meta
            = (m.threads.getD k emptyThreadEntry).meta ∧
        (destroyHit v (m.threads.getD k emptyThreadEntry) = true →
          ((destroy m v).1.threads.getD k emptyThreadEntry).elements.getD v emptyElementWrapper
              = emptyElementWrapper ∧
          ∀ j, j ≠ v →
            ((destroy m v).1.threads.getD k emptyThreadEntry).elements.getD j emptyElementWrapper
              = (m.threads.getD k emptyThreadEntry).elements.getD j emptyElementWrapper) ∧
        (destroyHit v (m.threads.getD k emptyThreadEntry) = false →
          (destroy m v).1.threads.getD k emptyThreadEntry
            = m.threads.getD k emptyThreadEntry)) ∧
      (destroy m v).2.2 =
        (m.threads.filter (destroyHit v)).map
          (fun e => (e.elements.getD v emptyElementWrapper, TLPDestructionMode.ALL_THREADS)) ∧
      (∀ p, p ∈ (destroy m v).2.2 → p.2 = TLPDestructionMode.ALL_THREADS)) := by
  constructor
  · intro h
    simp [destroy, h]
  · intro h
    have hd :
        destroy m v =
          ({ m with
              freeIds_ := m.freeIds_ ++ [v],
              threads := m.threads.map (fun e => if destroyHit v e then clearSlot e v else e) },
           kEntryIDInvalid,
           (m.threads.filter (destroyHit v)).map
             (fun e => (e.elements.getD v emptyElementWrapper, TLPDestructionMode.ALL_THREADS))) := by
      simp [destroy, h]
    refine ⟨by rw [hd], by rw [hd], by rw [hd], by rw [hd]; simp, ?_, by rw [hd], ?_⟩
    · intro k hk
      have hget :
          (destroy m v).1.threads.getD k emptyThreadEntry =
            (if destroyHit v (m.threads.getD k emptyThreadEntry) then
              clearSlot (m.threads.getD k emptyThreadEntry) v
            else m.threads.getD k emptyThreadEntry) := by
        rw [hd]
        exact getD_map_lt _ m.threads k emptyThreadEntry emptyThreadEntry hk
      by_cases hh : destroyHit v (m.threads.getD k emptyThreadEntry) = true
      · rw [hget, if_pos hh]
        refine ⟨rfl, rfl, ?_, ?_⟩
        · intro _
          constructor
          · by_cases hv : v < (m.threads.getD k emptyThreadEntry).elements.length
            · exact getD_set_self _ v _ _ hv
            · rw [clearSlot]
              rw [List.getD_eq_default]
              rw [List.length_set]
              omega
          · intro j hj
            exact getD_set_ne _ v j _ _ (fun he => hj he.symm)
        · intro hcontr
          rw [hh] at hcontr
          cases hcontr
      · rw [hget, if_neg hh]
        exact ⟨rfl, rfl, fun hc => absurd hc hh, fun _ => rfl⟩
    · intro p hp
      rw [hd] at hp
      simp at hp
      obtain ⟨e, _, hpe⟩ := hp
      rw [← hpe]

/-- Witness for C1 at a concrete registry: destroying id 1 invalidates the
handle, pushes 1 onto the free pool, and captures exactly the one occupied
in-capacity slot, disposed in all-threads mode. -/
theorem destroy_correct_witness :
    (1 : Nat) ≠ kEntryIDInvalid ∧
    (destroy sampleMeta 1).2.1 = kEntryIDInvalid ∧
    (destroy sampleMeta 1).1.freeIds_ = sampleMeta.freeIds_ ++ [1] ∧
    (destroy sampleMeta 1).2.2 =
      [({ ptr := some 5, deleter1 := some 7, ownsDeleter := false },
        TLPDestructionMode.ALL_THREADS)] := by
  have h1 : (1 : Nat) ≠ kEntryIDInvalid := by decide
  refine ⟨h1, ((destroy_correct sampleMeta 1).2 h1).1,
    ((destroy_correct sampleMeta 1).2 h1).2.2.1, ?_⟩
  rw [((destroy_correct sampleMeta 1).2 h1).2.2.2.2.2.1]
  decide

/-! ## C3: allocate is idempotent -/

/-- C3: if the handle already carries a valid id, `allocate` returns that id
and leaves the handle's stored id, `nextId_`, and the free-id pool untouched;
hence a repeated call returns the same id again. -/
theorem allocate_idempotent (m : StaticMetaBase) (v : Nat) (h : v ≠ kEntryIDInvalid) :
    allocate m v = (v, m, v) ∧
    allocate (allocate m v).2.1 (allocate m v).2.2 = (v, m, v) := by
  have h1 : allocate m v = (v, m, v) := by
    simp [allocate, h]
  exact ⟨h1, by rw [h1]; exact h1⟩

/-- Witness for C3: a handle holding id 3 keeps it, and the registry state
(counter 5, pool [2]) is unchanged. -/
theorem allocate_idempotent_witness :
    allocate { nextId_ := 5, freeIds_ := [2], threads := [] } 3 =
      (3, { nextId_ := 5, freeIds_ := [2], threads := [] }, 3) :=
  (allocate_idempotent { nextId_ := 5, freeIds_ := [2], threads := [] } 3 (by decide)).1

/-! ## C10: the free-id pool is a LIFO stack -/

/-- C10: `destroy` pushes the released id onto the back of the pool and
`allocate` pops from the back, so ids released by two destroys are reused in
reverse order of release: the most recently released first. -/
theorem freeIds_lifo (m : StaticMetaBase) (l : List Nat) (a b v : Nat)
    (hv : v ≠ kEntryIDInvalid) (hfl : m.freeIds_ = l ++ [a, b]) :
    (destroy m v).1.freeIds_ = m.freeIds_ ++ [v] ∧
    (allocate m kEntryIDInvalid).1 = b ∧
    (allocate m kEntryIDInvalid).2.1.freeIds_ = l ++ [a] ∧
    (allocate m kEntryIDInvalid).2.1.nextId_ = m.nextId_ ∧
    (allocate (allocate m kEntryIDInvalid).2.1 kEntryIDInvalid).1 = a ∧
    (allocate (allocate m kEntryIDInvalid).2.1 kEntryIDInvalid).2.1.freeIds_ = l := by
  have hsplit : m.freeIds_ = (l ++ [a]) ++ [b] := by
    rw [hfl]
    simp
  have ha1 :
      allocate m kEntryIDInvalid =
        (b, { m with freeIds_ := l ++ [a] }, b) := by
    unfold allocate
    rw [if_neg (fun hc => hc rfl), hsplit, List.getLast?_concat, List.dropLast_concat]
  have ha2 :
      allocate { m with freeIds_ := l ++ [a] } kEntryIDInvalid =
        (a, { m with freeIds_ := l }, a) := by
    unfold allocate
    rw [if_neg (fun hc => hc rfl)]
    simp only [List.getLast?_concat, List.dropLast_concat]
  refine ⟨?_, by rw [ha1], by rw [ha1], by rw [ha1], by rw [ha1]; exact congrArg Prod.fst ha2, ?_⟩
  · simp [destroy, hv]
  · rw [ha1]
    rw [ha2]

/-- Witness for C10: with pool [4, 9], fresh allocations pop 9 then 4, and a
destroy of id 5 pushes it at the back. -/
theorem freeIds_lifo_witness :
    (destroy { nextId_ := 7, freeIds_ := [4, 9], threads := [] } 5).1.freeIds_ = [4, 9, 5] ∧
    (allocate { nextId_ := 7, freeIds_ := [4, 9], threads := [] } kEntryIDInvalid).1 = 9 ∧
    (allocate
        (allocate { nextId_ := 7, freeIds_ := [4, 9], threads := [] } kEntryIDInvalid).2.1
        kEntryIDInvalid).1 = 4 := by
  have h :=
    freeIds_lifo { nextId_ := 7, freeIds_ := [4, 9], threads := [] } [] 4 9 5
      (by decide) (by decide)
  exact ⟨h.1, h.2.1, h.2.2.2.2.1⟩

/-! ## C5: released ids are reused before the counter advances -/

/-- C5: after allocating ids 1, 2, 3 to three fresh handles, destroying the
second releases id 2; the next `allocate` on a fresh handle returns 2 (not 4)
and the counter stays at 4. -/
theorem reuse_released_id_first :
    (applyOps initSys opsA).handles = [1, 2, 3] ∧
    (applyOps initSys opsA).nextId_ = 4 ∧
    (applyOps initSys opsB).freeIds_ = [2] ∧
    allocResult (applyOps initSys opsB) 3 = 2 ∧
    (applyOps initSys (opsB ++ [Op.alloc 3])).handles = [1, kEntryIDInvalid, 3, 2] ∧
    (applyOps initSys (opsB ++ [Op.alloc 3])).nextId_ = 4 ∧
    (applyOps initSys (opsB ++ [Op.alloc 3])).freeIds_ = [] := by decide

/-! ## C6 and C7: growth -/

/-- C6: growth preserves contents.  For a table grown by `reserve` from
capacity C1 to capacity C2 — on the jemalloc in-place path, the jemalloc
fresh-allocation path, and the plain `calloc`-and-copy path alike — the
capacity strictly increases, the slots at indices below C1 hold exactly the
values they held before, and every slot from C1 on is the zero-initialized
empty slot. -/
theorem reserve_preserves_contents (uj inPlace : Bool) (realCap : Nat → Nat)
    (te : ThreadEntry) (idval : Nat)
    (hreal : ∀ k, k ≤ realCap k)
    (hwf : te.elements.length = te.elementsCapacity)
    (h5 : idval + 5 < 2 ^ 32)
    (hgrow : te.elementsCapacity ≤ idval) :
    te.elementsCapacity < (reserveTable uj realCap inPlace te idval).elementsCapacity ∧
    (reserveTable uj realCap inPlace te idval).elements.length
        = (reserveTable uj realCap inPlace te idval).elementsCapacity ∧
    (∀ i, i < te.elementsCapacity →
      (reserveTable uj realCap inPlace te idval).elements.getD i emptyElementWrapper
        = te.elements.getD i emptyElementWrapper) ∧
    (∀ i, te.elementsCapacity ≤ i →
      (reserveTable uj realCap inPlace te idval).elements.getD i emptyElementWrapper
        = emptyElementWrapper) := by
  have hid : idval < newCapacityFor idval := by
    unfold newCapacityFor
    rw [Nat.mod_eq_of_lt h5]
    have : idval + 1 ≤ (idval + 5) * 17 / 10 := by
      rw [Nat.le_div_iff_mul_le (by omega)]
      omega
    omega
  have hnc : newCapacityFor idval ≤ (if uj then realCap (newCapacityFor idval)
      else newCapacityFor idval) := by
    cases uj
    · simp
    · simpa using hreal (newCapacityFor idval)
  have hcaplt : te.elementsCapacity <
      (if uj then realCap (newCapacityFor idval) else newCapacityFor idval) := by
    omega
  have hres :
      reserveTable uj realCap inPlace te idval =
        { te with
            elements :=
              te.elements ++
                List.replicate
                  ((if uj then realCap (newCapacityFor idval) else newCapacityFor idval)
                    - te.elementsCapacity) emptyElementWrapper,
            elementsCapacity :=
              if uj then realCap (newCapacityFor idval) else newCapacityFor idval } := by
    unfold reserveTable
    rw [if_neg (by omega)]
    cases uj <;> cases inPlace <;>
      simp only [Bool.and_self, Bool.and_false, Bool.and_true, Bool.false_and, Bool.true_and,
        if_true, if_false, Bool.false_eq_true, ite_false, ite_true] <;>
      rw [← hwf, List.take_length]
  rw [hres]
  refine ⟨hcaplt, ?_, ?_, ?_⟩
  · simp only [List.length_append, List.length_replicate, hwf]
    omega
  · intro i hi
    exact getD_append_left _ _ i _ (by omega)
  · intro i hi
    by_cases hlen : i < te.elements.length +
        ((if uj then realCap (newCapacityFor idval) else newCapacityFor idval)
          - te.elementsCapacity)
    · rw [getD_append_right _ _ i _ (by omega)]
      exact getD_replicate _ _ _ _ (by omega)
    · rw [List.getD_eq_default]
      simp only [List.length_append, List.length_replicate]
      omega

/-- Witness for C6: growing a one-slot table for id 1 yields capacity 10,
keeps slot 0, and zero-fills the new slots. -/
theorem reserve_preserves_contents_witness :
    (1 : Nat) <
      (reserveTable false (fun k => k) false sampleThread2 1).elementsCapacity ∧
    (reserveTable false (fun k => k) false sampleThread2 1).elements.getD 0
        emptyElementWrapper = sampleThread2.elements.getD 0 emptyElementWrapper ∧
    (reserveTable false (fun k => k) false sampleThread2 1).elements.getD 5
        emptyElementWrapper = emptyElementWrapper := by
  have h :=
    reserve_preserves_contents false false (fun k => k) sampleThread2 1
      (fun k => Nat.le_refl k) (by decide) (by decide) (by decide)
  exact ⟨h.1, h.2.2.1 0 (by decide), h.2.2.2 5 (by decide)⟩

/-- Helper for C7, the in-range behaviour of the growth formula: when
`idval + 5` does not overflow `uint32_t`, the new capacity is exactly
`floor((idval + 5) * 1.7)`, it strictly exceeds both the id and the previous
capacity, and `get`'s retried bounds check `elementsCapacity > id` after the
growth therefore succeeds; the jemalloc path can only round the capacity
further up. -/
theorem reserve_growth_formula (idval : Nat) (te : ThreadEntry)
    (h5 : idval + 5 < 2 ^ 32) (hgrow : te.elementsCapacity ≤ idval) :
    newCapacityFor idval = (idval + 5) * 17 / 10 ∧
    idval < newCapacityFor idval ∧
    te.elementsCapacity < newCapacityFor idval ∧
    (reserveTable false (fun k => k) false te idval).elementsCapacity
      = newCapacityFor idval ∧
    idval < (reserveTable false (fun k => k) false te idval).elementsCapacity ∧
    (∀ realCap : Nat → Nat, (∀ k, k ≤ realCap k) → ∀ inPlace,
      newCapacityFor idval ≤ (reserveTable true realCap inPlace te idval).elementsCapacity) := by
  have heq : newCapacityFor idval = (idval + 5) * 17 / 10 := by
    unfold newCapacityFor
    rw [Nat.mod_eq_of_lt h5]
  have hid : idval < newCapacityFor idval := by
    rw [heq]
    have : idval + 1 ≤ (idval + 5) * 17 / 10 := by
      rw [Nat.le_div_iff_mul_le (by omega)]
      omega
    omega
  have hcap :
      (reserveTable false (fun k => k) false te idval).elementsCapacity
        = newCapacityFor idval := by
    unfold reserveTable
    rw [if_neg (by omega)]
    simp
  refine ⟨heq, hid, by omega, hcap, by omega, ?_⟩
  intro realCap hrc inPlace
  unfold reserveTable
  rw [if_neg (by omega)]
  simpa using hrc (newCapacityFor idval)

/-- C7 (overflow of the growth formula): at id `2 ^ 32 - 5` the 32-bit sum
`idval + 5` wraps to 0, so `reserve` computes new capacity 0 — not the
claimed `floor((id + 5) * 1.7) = 7301444403`, not exceeding the id, and
violating the source's own `assert(newCapacity > prevCapacity)`; one id
earlier, at `2 ^ 32 - 6`, the formula still behaves as claimed. -/
theorem reserve_capacity_overflow :
    newCapacityFor (2 ^ 32 - 5) = 0 ∧
    ((2 ^ 32 - 5) + 5) % 2 ^ 32 = 0 ∧
    (2 ^ 32 : Nat) * 17 / 10 = 7301444403 ∧
    (reserveTable false (fun k => k) false
        { elements := [], elementsCapacity := 0, meta := true } (2 ^ 32 - 5)).elementsCapacity
      = 0 ∧
    ¬ ((2 ^ 32 - 5 : Nat) < newCapacityFor (2 ^ 32 - 5)) ∧
    newCapacityFor (2 ^ 32 - 6) = 7301444401 ∧
    (2 ^ 32 - 6 : Nat) < newCapacityFor (2 ^ 32 - 6) := by
  refine ⟨by decide, by decide, by norm_num, by decide, by decide, by decide, by decide⟩

/-! ## C8: disposer failures -/

/-- C8 (amended): a failure escaping a user disposer during the cross-thread
`destroy` sweep is caught at `destroy`'s outermost boundary, recorded in the
warning log, and discarded: `destroy` always returns normally, with the
registry and handle exactly as the locked scan left them, and the warning is
logged precisely when a disposer failed.  (The thread-exit sweep has no such
boundary: the source of `onThreadExit` contains no try/catch, so a failure
escaping a disposer there propagates to the caller.) -/
theorem destroy_never_propagates (thr : ElementWrapper → Bool) (m : StaticMetaBase) (v : Nat) :
    (∃ r, destroyTop thr m v = .ok r) ∧
    (∀ r, destroyTop thr m v = .ok r → r.1 = (destroy m v).1 ∧ r.2.1 = (destroy m v).2.1) ∧
    (∀ e, destroyBody thr m v = .error e →
      destroyTop thr m v = .ok ((destroy m v).1, (destroy m v).2.1, true)) ∧
    ((∀ e, thr e = false) →
      destroyTop thr m v = .ok ((destroy m v).1, (destroy m v).2.1, false)) := by
  have hok : (∀ e, thr e = false) → ∀ (l : List ElementWrapper),
      ∃ evs, disposeLoopE thr l = .ok evs := by
    intro hl l
    induction l with
    | nil => exact ⟨[], rfl⟩
    | cons e rest ih =>
      obtain ⟨evs, hevs⟩ := ih
      refine ⟨(e, TLPDestructionMode.ALL_THREADS) :: evs, ?_⟩
      unfold disposeLoopE
      rw [hl e]
      simp only [Bool.false_eq_true, if_false, hevs]
  have hchar :
      (∃ evs, disposeLoopE thr ((destroy m v).2.2.map Prod.fst) = .ok evs ∧
         destroyBody thr m v = .ok ((destroy m v).1, (destroy m v).2.1, evs) ∧
         destroyTop thr m v = .ok ((destroy m v).1, (destroy m v).2.1, false)) ∨
      (∃ k, disposeLoopE thr ((destroy m v).2.2.map Prod.fst) = .error k ∧
         destroyBody thr m v = .error ((destroy m v).1, (destroy m v).2.1) ∧
         destroyTop thr m v = .ok ((destroy m v).1, (destroy m v).2.1, true)) := by
    cases hd : disposeLoopE thr ((destroy m v).2.2.map Prod.fst) with
    | ok evs =>
      refine Or.inl ⟨evs, rfl, ?_, ?_⟩
      · unfold destroyBody
        rw [hd]
      · unfold destroyTop destroyBody
        rw [hd]
    | error k =>
      refine Or.inr ⟨k, rfl, ?_, ?_⟩
      · unfold destroyBody
        rw [hd]
      · unfold destroyTop destroyBody
        rw [hd]
  rcases hchar with ⟨evs, hd, hb, ht⟩ | ⟨k, hd, hb, ht⟩
  · refine ⟨⟨_, ht⟩, ?_, ?_, fun _ => ht⟩
    · intro r hr
      rw [ht] at hr
      cases hr
      exact ⟨rfl, rfl⟩
    · intro e he
      rw [hb] at he
      exact Except.noConfusion he
  · refine ⟨⟨_, ht⟩, ?_, fun _ _ => ht, ?_⟩
    · intro r hr
      rw [ht] at hr
      cases hr
      exact ⟨rfl, rfl⟩
    · intro hnothrow
      obtain ⟨evs, hevs⟩ := hok hnothrow ((destroy m v).2.2.map Prod.fst)
      rw [hd] at hevs
      exact Except.noConfusion hevs

/-- Witness for C8's amended theorem: with a disposer that always throws,
destroying id 1 of the sample registry still returns normally, with the
warning recorded. -/
theorem destroy_never_propagates_witness :
    (∃ r, destroyTop (fun _ => true) sampleMeta 1 = .ok r) ∧
    destroyTop (fun _ => true) sampleMeta 1 =
      .ok ((destroy sampleMeta 1).1, (destroy sampleMeta 1).2.1, true) := by
  refine ⟨(destroy_never_propagates (fun _ => true) sampleMeta 1).1, ?_⟩
  apply (destroy_never_propagates (fun _ => true) sampleMeta 1).2.2.1
    ((destroy sampleMeta 1).1, (destroy sampleMeta 1).2.1)
  rfl

/-- Counterexample to C8 as stated: the thread-exit sweep has no catch
boundary in the source, so a failure escaping a disposer there propagates
out of `onThreadExit` instead of being caught and discarded. -/
theorem onThreadExit_propagates :
    onThreadExitE (fun _ => true) 2
        { elements := [{ ptr := some 1, deleter1 := some 2, ownsDeleter := false }],
          elementsCapacity := 1, meta := true }
      = Except.error 0 := by
  rfl

/-! ## C2: the thread-exit sweep -/

theorem sweepPass_zero (eff : Nat → List (Nat × ElementWrapper)) (t : List ElementWrapper)
    (i : Nat) : sweepPass eff t i 0 = (t, []) := rfl

theorem sweepPass_succ_occ (eff : Nat → List (Nat × ElementWrapper)) (t : List ElementWrapper)
    (i r : Nat) (h : (t.getD i emptyElementWrapper).ptr.isSome = true) :
    sweepPass eff t i (r + 1) =
      ((sweepPass eff ((applyWrites t (eff i)).set i emptyElementWrapper) (i + 1) r).1,
       (i, TLPDestructionMode.THIS_THREAD) ::
         (sweepPass eff ((applyWrites t (eff i)).set i emptyElementWrapper) (i + 1) r).2) := by
  simp only [sweepPass]
  rw [if_pos h]

theorem sweepPass_succ_emp (eff : Nat → List (Nat × ElementWrapper)) (t : List ElementWrapper)
    (i r : Nat) (h : (t.getD i emptyElementWrapper).ptr.isSome = false) :
    sweepPass eff t i (r + 1) = sweepPass eff t (i + 1) r := by
  simp only [sweepPass]
  rw [if_neg (fun hc => by rw [h] at hc; exact Bool.noConfusion hc)]

theorem applyWrites_length (ws : List (Nat × ElementWrapper)) (t : List ElementWrapper) :
    (applyWrites t ws).length = t.length := by
  induction ws generalizing t with
  | nil => rfl
  | cons w ws ih =>
    show (applyWrites (t.set w.1 w.2) ws).length = t.length
    rw [ih, List.length_set]

theorem sweepPass_length (eff : Nat → List (Nat × ElementWrapper)) (r : Nat) :
    ∀ t i, (sweepPass eff t i r).1.length = t.length := by
  induction r with
  | zero => intro t i; rfl
  | succ r ih =>
    intro t i
    cases hb : (t.getD i emptyElementWrapper).ptr.isSome with
    | true =>
      rw [sweepPass_succ_occ eff t i r hb]
      show (sweepPass eff _ (i + 1) r).1.length = t.length
      rw [ih, List.length_set, applyWrites_length]
    | false =>
      rw [sweepPass_succ_emp eff t i r hb]
      exact ih t (i + 1)

theorem sweepPass_empty_log (eff : Nat → List (Nat × ElementWrapper)) (r : Nat) :
    ∀ t i, (sweepPass eff t i r).2 = [] →
      (sweepPass eff t i r).1 = t ∧
      ∀ j, i ≤ j → j < i + r → (t.getD j emptyElementWrapper).ptr.isSome = false := by
  induction r with
  | zero => exact fun t i _ => ⟨rfl, fun j h1 h2 => absurd h2 (by omega)⟩
  | succ r ih =>
    intro t i hlog
    cases hb : (t.getD i emptyElementWrapper).ptr.isSome with
    | true =>
      rw [sweepPass_succ_occ eff t i r hb] at hlog
      cases hlog
    | false =>
      rw [sweepPass_succ_emp eff t i r hb] at hlog ⊢
      obtain ⟨h1, h2⟩ := ih t (i + 1) hlog
      refine ⟨h1, fun j hj1 hj2 => ?_⟩
      by_cases hji : j = i
      · rw [hji]; exact hb
      · exact h2 j (by omega) (by omega)

theorem sweepPass_all_empty (eff : Nat → List (Nat × ElementWrapper)) (r : Nat) :
    ∀ t i, (∀ j, (t.getD j emptyElementWrapper).ptr.isSome = false) →
      sweepPass eff t i r = (t, []) := by
  induction r with
  | zero => intro t i _; rfl
  | succ r ih =>
    intro t i hemp
    rw [sweepPass_succ_emp eff t i r (hemp i)]
    exact ih t (i + 1) hemp

theorem sweepPass_modes (eff : Nat → List (Nat × ElementWrapper)) (r : Nat) :
    ∀ t i p, p ∈ (sweepPass eff t i r).2 → p.2 = TLPDestructionMode.THIS_THREAD := by
  induction r with
  | zero => intro t i p hp; cases hp
  | succ r ih =>
    intro t i p hp
    cases hb : (t.getD i emptyElementWrapper).ptr.isSome with
    | true =>
      rw [sweepPass_succ_occ eff t i r hb] at hp
      rcases List.mem_cons.mp hp with h | h
      · rw [h]
      · exact ih _ (i + 1) p h
    | false =>
      rw [sweepPass_succ_emp eff t i r hb] at hp
      exact ih t (i + 1) p hp

theorem applyWrites_occupied (ws : List (Nat × ElementWrapper)) (t : List ElementWrapper)
    (j : Nat) (hws : ∀ w, w ∈ ws → (Prod.snd w).ptr.isSome = true)
    (hj : (t.getD j emptyElementWrapper).ptr.isSome = true) :
    ((applyWrites t ws).getD j emptyElementWrapper).ptr.isSome = true := by
  induction ws generalizing t with
  | nil => exact hj
  | cons w ws ih =>
    show (((applyWrites (t.set w.1 w.2) ws)).getD j emptyElementWrapper).ptr.isSome = true
    refine ih (t.set w.1 w.2) (fun w' hw' => hws w' (List.mem_cons_of_mem w hw')) ?_
    have hjlen : j < t.length := lt_length_of_getD_occupied t j hj
    by_cases hji : w.1 = j
    · rw [hji] at *
      rw [getD_set_self t j w.2 emptyElementWrapper hjlen]
      exact hws w (List.mem_cons_self w ws)
    · rw [getD_set_ne t w.1 j w.2 emptyElementWrapper hji]
      exact hj

theorem sweepPass_mem_log (eff : Nat → List (Nat × ElementWrapper))
    (hocc : ∀ i w, w ∈ eff i → (Prod.snd w).ptr.isSome = true) (r : Nat) :
    ∀ t i j, i ≤ j → j < i + r → (t.getD j emptyElementWrapper).ptr.isSome = true →
      j ∈ (sweepPass eff t i r).2.map Prod.fst := by
  induction r with
  | zero => intro t i j h1 h2; omega
  | succ r ih =>
    intro t i j h1 h2 hj
    by_cases hji : j = i
    · rw [← hji] at *
      rw [sweepPass_succ_occ eff t j r hj]
      simp
    · have hib : (t.getD i emptyElementWrapper).ptr.isSome = true ∨
          (t.getD i emptyElementWrapper).ptr.isSome = false := by
        cases (t.getD i emptyElementWrapper).ptr.isSome
        · exact Or.inr rfl
        · exact Or.inl rfl
      rcases hib with hb | hb
      · rw [sweepPass_succ_occ eff t i r hb]
        refine List.mem_cons_of_mem i ?_
        refine ih _ (i + 1) j (by omega) (by omega) ?_
        rw [getD_set_ne _ i j _ _ (fun he => hji he.symm)]
        exact applyWrites_occupied (eff i) t j (fun w hw => hocc i w hw) hj
      · rw [sweepPass_succ_emp eff t i r hb]
        exact ih t (i + 1) j (by omega) (by omega) hj

theorem sweepLoop_some_empty (eff : Nat → List (Nat × ElementWrapper)) (fuel : Nat) :
    ∀ t tf log, sweepLoop eff fuel t = some (tf, log) →
      tf.length = t.length ∧ ∀ j, (tf.getD j emptyElementWrapper).ptr.isSome = false := by
  induction fuel with
  | zero => intro t tf log h; cases h
  | succ fuel ih =>
    intro t tf log h
    rw [sweepLoop] at h
    by_cases hemp : ((sweepPass eff t 0 t.length).2).isEmpty = true
    · rw [if_pos hemp] at h
      obtain ⟨h1, h2⟩ :=
        sweepPass_empty_log eff t.length t 0 (List.isEmpty_iff.mp hemp)
      have hx := Option.some.inj h
      have htf : (sweepPass eff t 0 t.length).1 = tf := congrArg Prod.fst hx
      have htf2 : tf = t := by rw [← htf, h1]
      rw [htf2]
      refine ⟨rfl, fun j => ?_⟩
      by_cases hjl : j < t.length
      · exact h2 j (by omega) (by omega)
      · rw [List.getD_eq_default t emptyElementWrapper (by omega)]
        rfl
    · rw [if_neg hemp] at h
      cases hq : sweepLoop eff fuel (sweepPass eff t 0 t.length).1 with
      | none => rw [hq] at h; cases h
      | some q =>
        rw [hq] at h
        have hx := Option.some.inj h
        have htf : q.1 = tf := congrArg Prod.fst hx
        obtain ⟨h1, h2⟩ := ih _ q.1 q.2 hq
        rw [← htf]
        exact ⟨by rw [h1, sweepPass_length], h2⟩

theorem sweepLoop_modes (eff : Nat → List (Nat × ElementWrapper)) (fuel : Nat) :
    ∀ t tf log, sweepLoop eff fuel t = some (tf, log) →
      ∀ p, p ∈ log → p.2 = TLPDestructionMode.THIS_THREAD := by
  induction fuel with
  | zero => intro t tf log h; cases h
  | succ fuel ih =>
    intro t tf log h
    rw [sweepLoop] at h
    by_cases hemp : ((sweepPass eff t 0 t.length).2).isEmpty = true
    · rw [if_pos hemp] at h
      have hx := Option.some.inj h
      have hlog : (sweepPass eff t 0 t.length).2 = log := congrArg Prod.snd hx
      intro p hp
      rw [← hlog, List.isEmpty_iff.mp hemp] at hp
      cases hp
    · rw [if_neg hemp] at h
      cases hq : sweepLoop eff fuel (sweepPass eff t 0 t.length).1 with
      | none => rw [hq] at h; cases h
      | some q =>
        rw [hq] at h
        have hx := Option.some.inj h
        have hlog : (sweepPass eff t 0 t.length).2 ++ q.2 = log := congrArg Prod.snd hx
        intro p hp
        rw [← hlog] at hp
        rcases List.mem_append.mp hp with hp | hp
        · exact sweepPass_modes eff t.length t 0 p hp
        · exact ih _ q.1 q.2 hq p hp

theorem sweepLoop_mem_log (eff : Nat → List (Nat × ElementWrapper))
    (hocc : ∀ i w, w ∈ eff i → (Prod.snd w).ptr.isSome = true) (fuel : Nat)
    (t : List ElementWrapper) (tf : List ElementWrapper)
    (log : List (Nat × TLPDestructionMode))
    (h : sweepLoop eff fuel t = some (tf, log)) :
    ∀ j, j < t.length → (t.getD j emptyElementWrapper).ptr.isSome = true →
      j ∈ log.map Prod.fst := by
  intro j hjl hj
  cases fuel with
  | zero => cases h
  | succ fuel =>
    rw [sweepLoop] at h
    by_cases hemp : ((sweepPass eff t 0 t.length).2).isEmpty = true
    · obtain ⟨_, h2⟩ := sweepPass_empty_log eff t.length t 0 (List.isEmpty_iff.mp hemp)
      rw [h2 j (by omega) (by omega)] at hj
      cases hj
    · rw [if_neg hemp] at h
      cases hq : sweepLoop eff fuel (sweepPass eff t 0 t.length).1 with
      | none => rw [hq] at h; cases h
      | some q =>
        rw [hq] at h
        have hx := Option.some.inj h
        have hlog : (sweepPass eff t 0 t.length).2 ++ q.2 = log := congrArg Prod.snd hx
        rw [← hlog, List.map_append]
        exact List.mem_append.mpr
          (Or.inl (sweepPass_mem_log eff hocc t.length t 0 j (by omega) (by omega) hj))

theorem sweepPass_noeff_frame (eff : Nat → List (Nat × ElementWrapper))
    (heff : ∀ i, eff i = []) (r : Nat) :
    ∀ t i j, j < i →
      (sweepPass eff t i r).1.getD j emptyElementWrapper = t.getD j emptyElementWrapper := by
  induction r with
  | zero => intro t i j _; rfl
  | succ r ih =>
    intro t i j hj
    cases hb : (t.getD i emptyElementWrapper).ptr.isSome with
    | true =>
      rw [sweepPass_succ_occ eff t i r hb]
      show (sweepPass eff _ (i + 1) r).1.getD j emptyElementWrapper = _
      rw [ih _ (i + 1) j (by omega), heff i]
      show ((applyWrites t []).set i emptyElementWrapper).getD j emptyElementWrapper = _
      exact getD_set_ne _ i j _ _ (by omega)
    | false =>
      rw [sweepPass_succ_emp eff t i r hb]
      exact ih t (i + 1) j (by omega)

theorem sweepPass_noeff_empty (eff : Nat → List (Nat × ElementWrapper))
    (heff : ∀ i, eff i = []) (r : Nat) :
    ∀ t i j, i ≤ j → j < i + r →
      ((sweepPass eff t i r).1.getD j emptyElementWrapper).ptr.isSome = false := by
  induction r with
  | zero => intro t i j h1 h2; omega
  | succ r ih =>
    intro t i j h1 h2
    cases hb : (t.getD i emptyElementWrapper).ptr.isSome with
    | true =>
      rw [sweepPass_succ_occ eff t i r hb]
      by_cases hji : j = i
      · show ((sweepPass eff _ (i + 1) r).1.getD j emptyElementWrapper).ptr.isSome = false
        rw [hji, sweepPass_noeff_frame eff heff r _ (i + 1) i (by omega), heff i]
        show (((t.set i emptyElementWrapper)).getD i emptyElementWrapper).ptr.isSome = false
        have hlen : i < t.length := lt_length_of_getD_occupied t i hb
        rw [getD_set_self t i _ _ hlen]
        rfl
      · exact ih _ (i + 1) j (by omega) (by omega)
    | false =>
      rw [sweepPass_succ_emp eff t i r hb]
      by_cases hji : j = i
      · rw [hji, sweepPass_noeff_frame eff heff r t (i + 1) i (by omega)]
        exact hb
      · exact ih t (i + 1) j (by omega) (by omega)

theorem sweepPass_noeff_log (eff : Nat → List (Nat × ElementWrapper))
    (heff : ∀ i, eff i = []) (r : Nat) :
    ∀ t i, (sweepPass eff t i r).2.map Prod.fst =
      (List.range' i r).filter (fun j => (t.getD j emptyElementWrapper).ptr.isSome) := by
  induction r with
  | zero => intro t i; rfl
  | succ r ih =>
    intro t i
    rw [List.range'_succ, List.filter_cons]
    cases hb : (t.getD i emptyElementWrapper).ptr.isSome with
    | true =>
      rw [sweepPass_succ_occ eff t i r hb, if_pos rfl]
      show i :: (sweepPass eff _ (i + 1) r).2.map Prod.fst = _
      rw [ih _ (i + 1)]
      have hcongr :
          (List.range' (i + 1) r).filter
              (fun j => ((((applyWrites t (eff i)).set i emptyElementWrapper)).getD j
                emptyElementWrapper).ptr.isSome) =
            (List.range' (i + 1) r).filter
              (fun j => ((t.getD j emptyElementWrapper)).ptr.isSome) := by
        refine List.filter_congr (fun j hj => ?_)
        obtain ⟨k, _, hk⟩ := List.mem_range'.mp hj
        rw [heff i]
        show (((applyWrites t []).set i emptyElementWrapper).getD j
            emptyElementWrapper).ptr.isSome = _
        rw [getD_set_ne _ i j _ _ (by omega)]
        rfl
      rw [hcongr]
    | false =>
      rw [sweepPass_succ_emp eff t i r hb, if_neg Bool.false_ne_true]
      exact ih t (i + 1)

theorem sweepLoop_noeff_log (eff : Nat → List (Nat × ElementWrapper))
    (heff : ∀ i, eff i = []) (fuel : Nat) :
    ∀ t tf log, sweepLoop eff fuel t = some (tf, log) →
      log.map Prod.fst = occupiedIdx t := by
  induction fuel with
  | zero => intro t tf log h; cases h
  | succ fuel ih =>
    intro t tf log h
    have hpass : (sweepPass eff t 0 t.length).2.map Prod.fst = occupiedIdx t := by
      rw [sweepPass_noeff_log eff heff t.length t 0, occupiedIdx, List.range_eq_range']
    rw [sweepLoop] at h
    by_cases hemp : ((sweepPass eff t 0 t.length).2).isEmpty = true
    · rw [if_pos hemp] at h
      have hx := Option.some.inj h
      have hlog : (sweepPass eff t 0 t.length).2 = log := congrArg Prod.snd hx
      rw [← hlog, hpass]
    · rw [if_neg hemp] at h
      cases hq : sweepLoop eff fuel (sweepPass eff t 0 t.length).1 with
      | none => rw [hq] at h; cases h
      | some q =>
        rw [hq] at h
        have hx := Option.some.inj h
        have hlog : (sweepPass eff t 0 t.length).2 ++ q.2 = log := congrArg Prod.snd hx
        have htail : q.2.map Prod.fst = occupiedIdx (sweepPass eff t 0 t.length).1 :=
          ih _ q.1 q.2 hq
        have htailnil : occupiedIdx (sweepPass eff t 0 t.length).1 = [] := by
          rw [occupiedIdx]
          refine List.filter_eq_nil_iff.mpr (fun j hj => ?_)
          have hjl : j < (sweepPass eff t 0 t.length).1.length := List.mem_range.mp hj
          rw [sweepPass_length] at hjl
          rw [sweepPass_noeff_empty eff heff t.length t 0 j (by omega) (by omega)]
          exact Bool.false_ne_true
        rw [← hlog, List.map_append, hpass, htail, htailnil, List.append_nil]

/-- C2: `onThreadExit`, after the table is delisted (last conjunct: the
delisting removes exactly the thread's table from the live set and the
table is gone afterwards), repeatedly sweeps every index in
`[0, capacity)`, disposing occupied slots in this-thread mode and repeating
the full sweep until a pass disposes nothing.  When the loop terminates:
every slot the thread had populated is in the disposal log, slots that
disposers populate during the sweep are disposed too rather than leaked
(the final table is completely empty), with no repopulation the log is
exactly the initially-occupied indices, each exactly once and in order, and
afterwards the element storage is freed and the registry back-reference
cleared. -/
theorem onThreadExit_correct (eff : Nat → List (Nat × ElementWrapper)) (fuel : Nat)
    (te te' : ThreadEntry) (log : List (Nat × TLPDestructionMode))
    (hwf : te.elements.length = te.elementsCapacity)
    (hocc : ∀ i w, w ∈ eff i → (Prod.snd w).ptr.isSome = true)
    (h : onThreadExit eff fuel te = some (te', log)) :
    te'.elements = [] ∧ te'.meta = false ∧ te'.elementsCapacity = te.elementsCapacity ∧
    (∀ p, p ∈ log → p.2 = TLPDestructionMode.THIS_THREAD) ∧
    (∀ j, j < te.elementsCapacity →
      (te.elements.getD j emptyElementWrapper).ptr.isSome = true → j ∈ log.map Prod.fst) ∧
    (∃ tf, sweepLoop eff fuel te.elements = some (tf, log) ∧
      ∀ j, (tf.getD j emptyElementWrapper).ptr.isSome = false) ∧
    ((∀ i, eff i = []) → log.map Prod.fst = occupiedIdx te.elements ∧
      (log.map Prod.fst).Nodup) ∧
    (∀ s : Sys, ∀ tIdx : Nat, (s.tables.getD tIdx none).isSome = true →
      (applyOp s (Op.exitOp tIdx)).live = s.live.erase tIdx ∧
      (applyOp s (Op.exitOp tIdx)).tables.getD tIdx none = none) := by
  unfold onThreadExit at h
  cases hsl : sweepLoop eff fuel te.elements with
  | none => rw [hsl] at h; cases h
  | some p =>
    rw [hsl] at h
    have hx := Option.some.inj h
    have hte : (⟨[], te.elementsCapacity, false⟩ : ThreadEntry) = te' :=
      congrArg Prod.fst hx
    have hlog : p.2 = log := congrArg Prod.snd hx
    subst hte
    subst hlog
    have hsl2 : sweepLoop eff fuel te.elements = some (p.1, p.2) := hsl
    refine ⟨rfl, rfl, rfl, ?_, ?_, ?_, ?_, ?_⟩
    · exact sweepLoop_modes eff fuel te.elements p.1 p.2 hsl2
    · intro j hj hjo
      exact sweepLoop_mem_log eff hocc fuel te.elements p.1 p.2 hsl2 j (by omega) hjo
    · exact ⟨p.1, rfl, (sweepLoop_some_empty eff fuel te.elements p.1 p.2 hsl2).2⟩
    · intro heff
      have hlog2 := sweepLoop_noeff_log eff heff fuel te.elements p.1 p.2 hsl2
      refine ⟨hlog2, ?_⟩
      rw [hlog2]
      exact (List.nodup_range _).filter _
    · intro s tIdx hsome
      cases hg : s.tables.getD tIdx none with
      | none => rw [hg] at hsome; cases hsome
      | some te2 =>
        constructor
        · show (applyOp s (Op.exitOp tIdx)).live = s.live.erase tIdx
          simp only [applyOp, hg]
        · show (applyOp s (Op.exitOp tIdx)).tables.getD tIdx none = none
          simp only [applyOp, hg]
          by_cases htl : tIdx < s.tables.length
          · exact getD_set_self s.tables tIdx none none htl
          · rw [List.getD_eq_default]
            rw [List.length_set]
            omega

/-- Witness for C2: a three-slot table with slot 0 occupied; slot 0's
disposer populates slot 2, which is also disposed (the log is
`[(0, THIS_THREAD), (2, THIS_THREAD)]`), and the table comes back freed. -/
theorem onThreadExit_correct_witness :
    onThreadExit effW 3 teW2 = some (teW2post, logW2) ∧
    0 ∈ logW2.map Prod.fst ∧ 2 ∈ logW2.map Prod.fst ∧ teW2post.meta = false := by
  have hocc : ∀ i w, w ∈ effW i → (Prod.snd w).ptr.isSome = true := by
    intro i w hw
    by_cases hi : i = 0
    · simp only [effW, if_pos hi] at hw
      rw [List.mem_singleton.mp hw]
      rfl
    · simp only [effW, if_neg hi] at hw
      cases hw
  have h : onThreadExit effW 3 teW2 = some (teW2post, logW2) := by decide
  have hc := onThreadExit_correct effW 3 teW2 teW2post logW2 rfl hocc h
  exact ⟨h, hc.2.2.2.2.1 0 (by decide) (by decide), by decide, hc.2.1⟩

/-! ## C4 and C9: reachable-state invariants -/

theorem applyOp_newHandle_eq (s : Sys) :
    applyOp s Op.newHandle = { s with handles := s.handles ++ [kEntryIDInvalid] } := rfl

theorem applyOp_alloc_eq (s : Sys) (h : Nat) : applyOp s (Op.alloc h) = allocStep s h := rfl

theorem applyOp_newThread_eq (s : Sys) :
    applyOp s Op.newThread =
      { s with tables :=
          s.tables ++ [some { elements := [], elementsCapacity := 0, meta := true }] } := rfl

theorem applyOp_destroyOp_eq (s : Sys) (h : Nat) :
    applyOp s (Op.destroyOp h) =
      (if h < s.handles.length then
        if s.handles.getD h kEntryIDInvalid = kEntryIDInvalid then s
        else
          { s with
              handles := s.handles.set h kEntryIDInvalid,
              freeIds_ := s.freeIds_ ++ [s.handles.getD h kEntryIDInvalid],
              tables := sysClear (s.handles.getD h kEntryIDInvalid) s.tables s.live }
      else s) := rfl

theorem applyOp_reserveOp_none (s : Sys) (t h : Nat)
    (hg : s.tables.getD t none = none) : applyOp s (Op.reserveOp t h) = s := by
  show (match s.tables.getD t none with
    | none => s
    | some te =>
      if h < s.handles.length then
        if te.elementsCapacity > handleVal (allocStep s h) h then allocStep s h
        else
          { allocStep s h with
              tables := (allocStep s h).tables.set t
                (some (reserveTable false (fun k => k) false te (handleVal (allocStep s h) h))),
              live := if te.elementsCapacity = 0 then (allocStep s h).live ++ [t]
                else (allocStep s h).live }
      else s) = s
  rw [hg]

theorem applyOp_reserveOp_some (s : Sys) (t h : Nat) (te : ThreadEntry)
    (hg : s.tables.getD t none = some te) :
    applyOp s (Op.reserveOp t h) =
      (if h < s.handles.length then
        if te.elementsCapacity > handleVal (allocStep s h) h then allocStep s h
        else
          { allocStep s h with
              tables := (allocStep s h).tables.set t
                (some (reserveTable false (fun k => k) false te (handleVal (allocStep s h) h))),
              live := if te.elementsCapacity = 0 then (allocStep s h).live ++ [t]
                else (allocStep s h).live }
      else s) := by
  show (match s.tables.getD t none with
    | none => s
    | some te =>
      if h < s.handles.length then
        if te.elementsCapacity > handleVal (allocStep s h) h then allocStep s h
        else
          { allocStep s h with
              tables := (allocStep s h).tables.set t
                (some (reserveTable false (fun k => k) false te (handleVal (allocStep s h) h))),
              live := if te.elementsCapacity = 0 then (allocStep s h).live ++ [t]
                else (allocStep s h).live }
      else s) = _
  rw [hg]

theorem applyOp_exitOp_none (s : Sys) (t : Nat)
    (hg : s.tables.getD t none = none) : applyOp s (Op.exitOp t) = s := by
  show (match s.tables.getD t none with
    | none => s
    | some _ => { s with live := s.live.erase t, tables := s.tables.set t none }) = s
  rw [hg]

theorem applyOp_exitOp_some (s : Sys) (t : Nat) (te : ThreadEntry)
    (hg : s.tables.getD t none = some te) :
    applyOp s (Op.exitOp t) =
      { s with live := s.live.erase t, tables := s.tables.set t none } := by
  show (match s.tables.getD t none with
    | none => s
    | some _ => { s with live := s.live.erase t, tables := s.tables.set t none }) = _
  rw [hg]

theorem allocStep_valid (s : Sys) (h : Nat)
    (hval : handleVal s h ≠ kEntryIDInvalid) : allocStep s h = s := by
  unfold handleVal at hval
  unfold allocStep
  by_cases hh : h < s.handles.length
  · rw [if_pos hh, if_pos hval]
  · rw [if_neg hh]

theorem allocStep_oob (s : Sys) (h : Nat)
    (hh : ¬ h < s.handles.length) : allocStep s h = s := by
  unfold allocStep
  rw [if_neg hh]

theorem allocStep_pop (s : Sys) (h : Nat) (l : List Nat) (a : Nat)
    (hh : h < s.handles.length) (hval : handleVal s h = kEntryIDInvalid)
    (hfl : s.freeIds_ = l ++ [a]) :
    allocStep s h = { s with freeIds_ := l, handles := s.handles.set h a } := by
  unfold handleVal at hval
  unfold allocStep
  rw [if_pos hh, if_neg (fun hc => hc hval)]
  have hlast : s.freeIds_.getLast? = some a := by rw [hfl]; exact List.getLast?_concat l
  have halloc :
      allocate ⟨s.nextId_, s.freeIds_, []⟩ (s.handles.getD h kEntryIDInvalid) =
        (a, ⟨s.nextId_, l, []⟩, a) := by
    unfold allocate
    rw [if_neg (fun hc => hc hval)]
    simp only [hlast]
    simp only [hfl, List.dropLast_concat]
  rw [halloc]

theorem allocStep_fresh (s : Sys) (h : Nat)
    (hh : h < s.handles.length) (hval : handleVal s h = kEntryIDInvalid)
    (hfl : s.freeIds_ = []) :
    allocStep s h =
      { s with nextId_ := (s.nextId_ + 1) % 2 ^ 32,
               handles := s.handles.set h s.nextId_ } := by
  unfold handleVal at hval
  unfold allocStep
  rw [if_pos hh, if_neg (fun hc => hc hval)]
  have halloc :
      allocate ⟨s.nextId_, s.freeIds_, []⟩ (s.handles.getD h kEntryIDInvalid) =
        (s.nextId_, ⟨(s.nextId_ + 1) % 2 ^ 32, s.freeIds_, []⟩, s.nextId_) := by
    unfold allocate
    rw [if_neg (fun hc => hc hval), hfl]
    rfl
  rw [halloc]

/-- The three possible shapes of one `allocate` step on a system state. -/
theorem allocStep_cases (s : Sys) (h : Nat) :
    allocStep s h = s ∨
    (h < s.handles.length ∧ handleVal s h = kEntryIDInvalid ∧
      ((∃ l a, s.freeIds_ = l ++ [a] ∧ a ∈ s.freeIds_ ∧
          allocStep s h = { s with freeIds_ := l, handles := s.handles.set h a }) ∨
        (s.freeIds_ = [] ∧
          allocStep s h =
            { s with nextId_ := (s.nextId_ + 1) % 2 ^ 32,
                     handles := s.handles.set h s.nextId_ }))) := by
  by_cases hh : h < s.handles.length
  · by_cases hval : handleVal s h = kEntryIDInvalid
    · refine Or.inr ⟨hh, hval, ?_⟩
      cases hfl : s.freeIds_.getLast? with
      | some a =>
        have hne : s.freeIds_ ≠ [] := by
          intro he
          rw [he] at hfl
          cases hfl
        have ha : s.freeIds_.getLast hne = a := by
          rw [List.getLast?_eq_getLast _ hne] at hfl
          exact Option.some.inj hfl
        have hsplit : s.freeIds_ = s.freeIds_.dropLast ++ [a] := by
          rw [← ha]
          exact (List.dropLast_append_getLast hne).symm
        refine Or.inl ⟨s.freeIds_.dropLast, a, hsplit, ?_, allocStep_pop s h _ a hh hval hsplit⟩
        rw [← ha]
        exact List.getLast_mem hne
      | none =>
        have hnil : s.freeIds_ = [] := List.getLast?_eq_none_iff.mp hfl
        exact Or.inr ⟨hnil, allocStep_fresh s h hh hval hnil⟩
    · exact Or.inl (allocStep_valid s h hval)
  · exact Or.inl (allocStep_oob s h hh)

theorem allocStep_frame (s : Sys) (h : Nat) :
    (allocStep s h).tables = s.tables ∧ (allocStep s h).live = s.live := by
  rcases allocStep_cases s h with heq | ⟨_, _, ⟨l, a, _, _, heq⟩ | ⟨_, heq⟩⟩ <;>
    rw [heq] <;> exact ⟨rfl, rfl⟩

theorem allocStep_nextId (s : Sys) (h : Nat) :
    (allocStep s h).nextId_ ≤ s.nextId_ + 1 := by
  rcases allocStep_cases s h with heq | ⟨_, _, ⟨l, a, _, _, heq⟩ | ⟨_, heq⟩⟩ <;> rw [heq]
  · omega
  · show s.nextId_ ≤ s.nextId_ + 1
    omega
  · show (s.nextId_ + 1) % 2 ^ 32 ≤ s.nextId_ + 1
    exact Nat.mod_le _ _

theorem nextId_applyOp (s : Sys) (op : Op) :
    (applyOp s op).nextId_ ≤ s.nextId_ + 1 := by
  cases op with
  | newHandle =>
    rw [applyOp_newHandle_eq]
    show s.nextId_ ≤ s.nextId_ + 1
    omega
  | alloc h => exact allocStep_nextId s h
  | destroyOp h =>
    rw [applyOp_destroyOp_eq]
    by_cases hh : h < s.handles.length
    · rw [if_pos hh]
      by_cases hv : s.handles.getD h kEntryIDInvalid = kEntryIDInvalid
      · rw [if_pos hv]; omega
      · rw [if_neg hv]
        show s.nextId_ ≤ s.nextId_ + 1
        omega
    · rw [if_neg hh]; omega
  | newThread =>
    rw [applyOp_newThread_eq]
    show s.nextId_ ≤ s.nextId_ + 1
    omega
  | reserveOp t h =>
    cases hg : s.tables.getD t none with
    | none => rw [applyOp_reserveOp_none s t h hg]; omega
    | some te =>
      rw [applyOp_reserveOp_some s t h te hg]
      by_cases hh : h < s.handles.length
      · rw [if_pos hh]
        by_cases hc : te.elementsCapacity > handleVal (allocStep s h) h
        · rw [if_pos hc]; exact allocStep_nextId s h
        · rw [if_neg hc]
          show (allocStep s h).nextId_ ≤ s.nextId_ + 1
          exact allocStep_nextId s h
      · rw [if_neg hh]; omega
  | exitOp t =>
    cases hg : s.tables.getD t none with
    | none => rw [applyOp_exitOp_none s t hg]; omega
    | some te =>
      rw [applyOp_exitOp_some s t te hg]
      show s.nextId_ ≤ s.nextId_ + 1
      omega

theorem IdInv_allocStep (s : Sys) (h : Nat) (hinv : IdInv s)
    (hb : s.nextId_ ≤ 2 ^ 32 - 2) : IdInv (allocStep s h) := by
  obtain ⟨hdis, hbnd, hfree, hfna, hnd, hpos⟩ := hinv
  rcases allocStep_cases s h with heq | ⟨hh, hval, ⟨l, a, hfl, hmem, heq⟩ | ⟨hfl, heq⟩⟩
  · rw [heq]
    exact ⟨hdis, hbnd, hfree, hfna, hnd, hpos⟩
  · -- pop from the back of the pool
    rw [heq]
    have hab := hfree a hmem
    have hanass := hfna a hmem
    have hlnd : l.Nodup ∧ a ∉ l := by
      rw [hfl] at hnd
      obtain ⟨h1, _, h3⟩ := List.nodup_append.mp hnd
      exact ⟨h1, fun hal => h3 hal (List.mem_singleton.mpr rfl)⟩
    have hv : ∀ i, handleVal { s with freeIds_ := l, handles := s.handles.set h a } i
        = if i = h then a else handleVal s i := by
      intro i
      show (s.handles.set h a).getD i kEntryIDInvalid = _
      by_cases hi : i = h
      · subst hi
        rw [if_pos rfl]
        exact getD_set_self _ _ _ _ hh
      · rw [if_neg hi]
        exact getD_set_ne _ _ _ _ _ (fun he => hi he.symm)
    refine ⟨?_, ?_, ?_, ?_, hlnd.1, hpos⟩
    · intro i j hij h1 h2
      rw [hv i] at h1 ⊢
      rw [hv j] at h2 ⊢
      by_cases hi : i = h
      · rw [if_pos hi] at *
        by_cases hj : j = h
        · exact absurd (hi.trans hj.symm) hij
        · rw [if_neg hj] at *
          exact fun he => hanass j he.symm
      · rw [if_neg hi] at *
        by_cases hj : j = h
        · rw [if_pos hj] at *
          exact hanass i
        · rw [if_neg hj] at *
          exact hdis i j hij h1 h2
    · intro i h1
      rw [hv i] at h1 ⊢
      by_cases hi : i = h
      · rw [if_pos hi] at *
        exact hab
      · rw [if_neg hi] at *
        exact hbnd i h1
    · intro id hid
      have hid2 : id ∈ s.freeIds_ := by
        rw [hfl]
        exact List.mem_append.mpr (Or.inl hid)
      exact hfree id hid2
    · intro id hid i
      have hid2 : id ∈ s.freeIds_ := by
        rw [hfl]
        exact List.mem_append.mpr (Or.inl hid)
      rw [hv i]
      by_cases hi : i = h
      · rw [if_pos hi]
        intro he
        rw [← he] at hid
        exact hlnd.2 hid
      · rw [if_neg hi]
        exact hfna id hid2 i
  · -- fresh id from the counter
    rw [heq]
    have hmod : (s.nextId_ + 1) % 2 ^ 32 = s.nextId_ + 1 := by
      apply Nat.mod_eq_of_lt
      omega
    have hninv : s.nextId_ ≠ kEntryIDInvalid := by
      unfold kEntryIDInvalid
      omega
    have hv : ∀ i, handleVal
        { s with nextId_ := (s.nextId_ + 1) % 2 ^ 32, handles := s.handles.set h s.nextId_ } i
        = if i = h then s.nextId_ else handleVal s i := by
      intro i
      show (s.handles.set h s.nextId_).getD i kEntryIDInvalid = _
      by_cases hi : i = h
      · subst hi
        rw [if_pos rfl]
        exact getD_set_self _ _ _ _ hh
      · rw [if_neg hi]
        exact getD_set_ne _ _ _ _ _ (fun he => hi he.symm)
    refine ⟨?_, ?_, ?_, ?_, hnd, ?_⟩
    · intro i j hij h1 h2
      rw [hv i] at h1 ⊢
      rw [hv j] at h2 ⊢
      by_cases hi : i = h
      · rw [if_pos hi] at *
        by_cases hj : j = h
        · exact absurd (hi.trans hj.symm) hij
        · rw [if_neg hj] at *
          have := hbnd j h2
          omega
      · rw [if_neg hi] at *
        by_cases hj : j = h
        · rw [if_pos hj] at *
          have := hbnd i h1
          omega
        · rw [if_neg hj] at *
          exact hdis i j hij h1 h2
    · intro i h1
      rw [hv i] at h1 ⊢
      show _ ∧ _ < (s.nextId_ + 1) % 2 ^ 32
      rw [hmod]
      by_cases hi : i = h
      · rw [if_pos hi] at *
        omega
      · rw [if_neg hi] at *
        have := hbnd i h1
        omega
    · intro id hid
      have hid2 : id ∈ s.freeIds_ := hid
      rw [hfl] at hid2
      cases hid2
    · intro id hid
      have hid2 : id ∈ s.freeIds_ := hid
      rw [hfl] at hid2
      cases hid2
    · show 1 ≤ (s.nextId_ + 1) % 2 ^ 32
      rw [hmod]
      omega

theorem IdInv_applyOp (s : Sys) (op : Op) (hinv : IdInv s)
    (hb : s.nextId_ ≤ 2 ^ 32 - 2) : IdInv (applyOp s op) := by
  obtain ⟨hdis, hbnd, hfree, hfna, hnd, hpos⟩ := hinv
  cases op with
  | newHandle =>
    rw [applyOp_newHandle_eq]
    have hv : ∀ i, handleVal { s with handles := s.handles ++ [kEntryIDInvalid] } i
        = handleVal s i := by
      intro i
      show (s.handles ++ [kEntryIDInvalid]).getD i kEntryIDInvalid
        = s.handles.getD i kEntryIDInvalid
      by_cases hi : i < s.handles.length
      · exact getD_append_left _ _ _ _ hi
      · by_cases hie : i = s.handles.length
        · subst hie
          rw [getD_concat_length, List.getD_eq_default _ _ (Nat.le_refl _)]
        · rw [List.getD_eq_default _ _ (by simp; omega), List.getD_eq_default _ _ (by omega)]
    refine ⟨?_, ?_, hfree, ?_, hnd, hpos⟩
    · intro i j hij h1 h2
      rw [hv i] at h1 ⊢
      rw [hv j] at h2 ⊢
      exact hdis i j hij h1 h2
    · intro i h1
      rw [hv i] at h1 ⊢
      exact hbnd i h1
    · intro id hid i
      rw [hv i]
      exact hfna id hid i
  | alloc h => exact IdInv_allocStep s h ⟨hdis, hbnd, hfree, hfna, hnd, hpos⟩ hb
  | destroyOp h =>
    rw [applyOp_destroyOp_eq]
    by_cases hh : h < s.handles.length
    · rw [if_pos hh]
      by_cases hv0 : s.handles.getD h kEntryIDInvalid = kEntryIDInvalid
      · rw [if_pos hv0]
        exact ⟨hdis, hbnd, hfree, hfna, hnd, hpos⟩
      · rw [if_neg hv0]
        have hvb := hbnd h hv0
        have hvnotfree : s.handles.getD h kEntryIDInvalid ∉ s.freeIds_ :=
          fun hin => hfna _ hin h rfl
        have hv : ∀ i, handleVal
            { s with
                handles := s.handles.set h kEntryIDInvalid,
                freeIds_ := s.freeIds_ ++ [s.handles.getD h kEntryIDInvalid],
                tables := sysClear (s.handles.getD h kEntryIDInvalid) s.tables s.live } i
            = if i = h then kEntryIDInvalid else handleVal s i := by
          intro i
          show (s.handles.set h kEntryIDInvalid).getD i kEntryIDInvalid = _
          by_cases hi : i = h
          · subst hi
            rw [if_pos rfl]
            exact getD_set_self _ _ _ _ hh
          · rw [if_neg hi]
            exact getD_set_ne _ _ _ _ _ (fun he => hi he.symm)
        refine ⟨?_, ?_, ?_, ?_, ?_, hpos⟩
        · intro i j hij h1 h2
          rw [hv i] at h1 ⊢
          rw [hv j] at h2 ⊢
          by_cases hi : i = h
          · rw [if_pos hi] at h1
            exact absurd rfl h1
          · rw [if_neg hi] at *
            by_cases hj : j = h
            · rw [if_pos hj] at h2
              exact absurd rfl h2
            · rw [if_neg hj] at *
              exact hdis i j hij h1 h2
        · intro i h1
          rw [hv i] at h1 ⊢
          by_cases hi : i = h
          · rw [if_pos hi] at h1
            exact absurd rfl h1
          · rw [if_neg hi] at *
            exact hbnd i h1
        · intro id hid
          have hid2 : id ∈ s.freeIds_ ++ [s.handles.getD h kEntryIDInvalid] := hid
          rcases List.mem_append.mp hid2 with hold | hnew
          · exact hfree id hold
          · rw [List.mem_singleton.mp hnew]
            exact hvb
        · intro id hid i
          have hid2 : id ∈ s.freeIds_ ++ [s.handles.getD h kEntryIDInvalid] := hid
          rw [hv i]
          by_cases hi : i = h
          · rw [if_pos hi]
            rcases List.mem_append.mp hid2 with hold | hnew
            · have := hfree id hold
              unfold kEntryIDInvalid
              omega
            · rw [List.mem_singleton.mp hnew]
              exact fun he => hv0 he.symm
          · rw [if_neg hi]
            rcases List.mem_append.mp hid2 with hold | hnew
            · exact hfna id hold i
            · rw [List.mem_singleton.mp hnew]
              intro he
              have hvalid : handleVal s i ≠ kEntryIDInvalid := by
                rw [he]
                exact hv0
              exact hdis i h hi hvalid hv0 he
        · show (s.freeIds_ ++ [s.handles.getD h kEntryIDInvalid]).Nodup
          refine List.nodup_append.mpr ⟨hnd, List.nodup_singleton _, ?_⟩
          intro a ha hb2
          rw [List.mem_singleton.mp hb2] at ha
          exact hvnotfree ha
    · rw [if_neg hh]
      exact ⟨hdis, hbnd, hfree, hfna, hnd, hpos⟩
  | newThread =>
    rw [applyOp_newThread_eq]
    exact ⟨hdis, hbnd, hfree, hfna, hnd, hpos⟩
  | reserveOp t h =>
    cases hg : s.tables.getD t none with
    | none =>
      rw [applyOp_reserveOp_none s t h hg]
      exact ⟨hdis, hbnd, hfree, hfna, hnd, hpos⟩
    | some te =>
      rw [applyOp_reserveOp_some s t h te hg]
      by_cases hh : h < s.handles.length
      · rw [if_pos hh]
        have hstep := IdInv_allocStep s h ⟨hdis, hbnd, hfree, hfna, hnd, hpos⟩ hb
        by_cases hc : te.elementsCapacity > handleVal (allocStep s h) h
        · rw [if_pos hc]
          exact hstep
        · rw [if_neg hc]
          exact hstep
      · rw [if_neg hh]
        exact ⟨hdis, hbnd, hfree, hfna, hnd, hpos⟩
  | exitOp t =>
    cases hg : s.tables.getD t none with
    | none =>
      rw [applyOp_exitOp_none s t hg]
      exact ⟨hdis, hbnd, hfree, hfna, hnd, hpos⟩
    | some te =>
      rw [applyOp_exitOp_some s t te hg]
      exact ⟨hdis, hbnd, hfree, hfna, hnd, hpos⟩

theorem lt_length_of_getD_some {α : Type} (l : List (Option α)) (t : Nat) (x : α)
    (h : l.getD t none = some x) : t < l.length := by
  by_contra hge
  rw [List.getD_eq_default l none (by omega)] at h
  cases h

theorem existsCap_congr (o o' : Option ThreadEntry)
    (h : Option.map ThreadEntry.elementsCapacity o
      = Option.map ThreadEntry.elementsCapacity o') :
    ((∃ te, o = some te ∧ 0 < te.elementsCapacity) ↔
      (∃ te, o' = some te ∧ 0 < te.elementsCapacity)) := by
  cases o with
  | none =>
    cases o' with
    | none => exact Iff.rfl
    | some b => exact absurd h (by simp)
  | some a =>
    cases o' with
    | none => exact absurd h (by simp)
    | some b =>
      have hcap : a.elementsCapacity = b.elementsCapacity := by simpa using h
      constructor
      · rintro ⟨te, hte, hc⟩
        refine ⟨b, rfl, ?_⟩
        rw [← hcap]
        rw [← Option.some.inj hte] at hc
        exact hc
      · rintro ⟨te, hte, hc⟩
        refine ⟨a, rfl, ?_⟩
        rw [hcap]
        rw [← Option.some.inj hte] at hc
        exact hc

theorem sysClear_cons (id : Nat) (tables : List (Option ThreadEntry)) (x : Nat)
    (xs : List Nat) :
    sysClear id tables (x :: xs) =
      sysClear id
        (match tables.getD x none with
         | none => tables
         | some e => if destroyHit id e then tables.set x (some (clearSlot e id)) else tables)
        xs := rfl

theorem sysClear_cap (id : Nat) (live : List Nat) :
    ∀ tables : List (Option ThreadEntry), ∀ t : Nat,
      Option.map ThreadEntry.elementsCapacity ((sysClear id tables live).getD t none)
        = Option.map ThreadEntry.elementsCapacity (tables.getD t none) := by
  induction live with
  | nil => intro tables t; rfl
  | cons x xs ih =>
    intro tables t
    rw [sysClear_cons]
    cases hx : tables.getD x none with
    | none =>
      rw [ih]
    | some e =>
      rw [ih]
      show Option.map ThreadEntry.elementsCapacity
          ((if destroyHit id e = true then tables.set x (some (clearSlot e id))
            else tables).getD t none)
        = Option.map ThreadEntry.elementsCapacity (tables.getD t none)
      by_cases hhit : destroyHit id e = true
      · rw [if_pos hhit]
        have hxlen : x < tables.length := lt_length_of_getD_some tables x e hx
        by_cases ht : t = x
        · subst ht
          rw [getD_set_self tables t _ none hxlen, hx]
          rfl
        · rw [getD_set_ne tables x t _ none (fun he => ht he.symm)]
      · rw [if_neg hhit]

theorem LiveInv_allocStep (s : Sys) (h : Nat) (hlv : LiveInv s) :
    LiveInv (allocStep s h) := by
  have hfr := allocStep_frame s h
  refine ⟨?_, ?_⟩
  · rw [hfr.2]
    exact hlv.1
  · intro t
    rw [hfr.1, hfr.2]
    exact hlv.2 t

theorem LiveInv_applyOp (s : Sys) (op : Op) (hid : IdInv s) (hlv : LiveInv s)
    (hb : s.nextId_ ≤ 2 ^ 32 - 6) : LiveInv (applyOp s op) := by
  cases op with
  | newHandle =>
    rw [applyOp_newHandle_eq]
    exact ⟨hlv.1, hlv.2⟩
  | alloc h => exact LiveInv_allocStep s h hlv
  | destroyOp h =>
    rw [applyOp_destroyOp_eq]
    by_cases hh : h < s.handles.length
    · rw [if_pos hh]
      by_cases hv0 : s.handles.getD h kEntryIDInvalid = kEntryIDInvalid
      · rw [if_pos hv0]
        exact hlv
      · rw [if_neg hv0]
        refine ⟨hlv.1, fun t => ?_⟩
        exact (existsCap_congr _ _
          (sysClear_cap (s.handles.getD h kEntryIDInvalid) s.live s.tables t)).trans (hlv.2 t)
    · rw [if_neg hh]
      exact hlv
  | newThread =>
    rw [applyOp_newThread_eq]
    refine ⟨hlv.1, fun t => ?_⟩
    show (∃ te, (s.tables ++ [some (⟨[], 0, true⟩ : ThreadEntry)]).getD t none = some te ∧
        0 < te.elementsCapacity) ↔ t ∈ s.live
    by_cases ht : t < s.tables.length
    · rw [getD_append_left _ _ t none ht]
      exact hlv.2 t
    · by_cases hte : t = s.tables.length
      · subst hte
        rw [getD_concat_length]
        constructor
        · rintro ⟨te, hte2, hc⟩
          rw [← Option.some.inj hte2] at hc
          simp at hc
        · intro hmem
          obtain ⟨te, hte2, _⟩ := (hlv.2 s.tables.length).mpr hmem
          rw [List.getD_eq_default s.tables none (Nat.le_refl _)] at hte2
          cases hte2
      · rw [List.getD_eq_default _ none (by simp; omega)]
        constructor
        · rintro ⟨te, hte2, _⟩
          cases hte2
        · intro hmem
          obtain ⟨te, hte2, _⟩ := (hlv.2 t).mpr hmem
          rw [List.getD_eq_default s.tables none (by omega)] at hte2
          cases hte2
  | reserveOp t h =>
    cases hg : s.tables.getD t none with
    | none =>
      rw [applyOp_reserveOp_none s t h hg]
      exact hlv
    | some te =>
      rw [applyOp_reserveOp_some s t h te hg]
      by_cases hh : h < s.handles.length
      · rw [if_pos hh]
        by_cases hc : te.elementsCapacity > handleVal (allocStep s h) h
        · rw [if_pos hc]
          exact LiveInv_allocStep s h hlv
        · rw [if_neg hc]
          have hfr := allocStep_frame s h
          have hstep := IdInv_allocStep s h hid (by omega)
          have hnid := allocStep_nextId s h
          -- the new capacity is positive
          have hcappos : 0 < newCapacityFor (handleVal (allocStep s h) h) := by
            by_cases hvi : handleVal (allocStep s h) h = kEntryIDInvalid
            · rw [hvi]
              decide
            · have hvb := hstep.2.1 h hvi
              have hv5 : handleVal (allocStep s h) h + 5 < 2 ^ 32 := by omega
              unfold newCapacityFor
              rw [Nat.mod_eq_of_lt hv5]
              have h10 : (1 : Nat) * 10 ≤ (handleVal (allocStep s h) h + 5) * 17 := by omega
              have := (Nat.le_div_iff_mul_le (show 0 < 10 by omega)).mpr h10
              omega
          have hcap' :
              (reserveTable false (fun k => k) false te
                (handleVal (allocStep s h) h)).elementsCapacity
                = newCapacityFor (handleVal (allocStep s h) h) := by
            unfold reserveTable
            rw [if_neg hc]
            simp
          have htlen : t < s.tables.length := lt_length_of_getD_some s.tables t te hg
          by_cases hcap0 : te.elementsCapacity = 0
          · -- first growth: insert into the live set
            rw [if_pos hcap0]
            have hnotin : t ∉ s.live := by
              intro hmem
              obtain ⟨te2, hte2, hc2⟩ := (hlv.2 t).mpr hmem
              rw [hg] at hte2
              rw [← Option.some.inj hte2] at hc2
              omega
            constructor
            · show ((allocStep s h).live ++ [t]).Nodup
              rw [hfr.2]
              refine List.nodup_append.mpr ⟨hlv.1, List.nodup_singleton _, ?_⟩
              intro a ha hb2
              rw [List.mem_singleton.mp hb2] at ha
              exact hnotin ha
            · intro t2
              show (∃ te2, ((allocStep s h).tables.set t _).getD t2 none = some te2 ∧
                  0 < te2.elementsCapacity) ↔ t2 ∈ (allocStep s h).live ++ [t]
              rw [hfr.1, hfr.2]
              by_cases ht2 : t2 = t
              · subst ht2
                rw [getD_set_self s.tables t2 _ none htlen]
                constructor
                · intro _
                  exact List.mem_append.mpr (Or.inr (List.mem_singleton.mpr rfl))
                · intro _
                  refine ⟨_, rfl, ?_⟩
                  rw [hcap']
                  exact hcappos
              · rw [getD_set_ne s.tables t t2 _ none (fun he => ht2 he.symm)]
                constructor
                · intro hex
                  exact List.mem_append.mpr (Or.inl ((hlv.2 t2).mp hex))
                · intro hmem
                  rcases List.mem_append.mp hmem with hm | hm
                  · exact (hlv.2 t2).mpr hm
                  · exact absurd (List.mem_singleton.mp hm) ht2
          · -- the table is already in the live set
            rw [if_neg hcap0]
            have htin : t ∈ s.live := (hlv.2 t).mp ⟨te, hg, by omega⟩
            constructor
            · show ((allocStep s h).live).Nodup
              rw [hfr.2]
              exact hlv.1
            · intro t2
              show (∃ te2, ((allocStep s h).tables.set t _).getD t2 none = some te2 ∧
                  0 < te2.elementsCapacity) ↔ t2 ∈ (allocStep s h).live
              rw [hfr.1, hfr.2]
              by_cases ht2 : t2 = t
              · subst ht2
                rw [getD_set_self s.tables t2 _ none htlen]
                constructor
                · intro _
                  exact htin
                · intro _
                  refine ⟨_, rfl, ?_⟩
                  rw [hcap']
                  exact hcappos
              · rw [getD_set_ne s.tables t t2 _ none (fun he => ht2 he.symm)]
                exact hlv.2 t2
      · rw [if_neg hh]
        exact hlv
  | exitOp t =>
    cases hg : s.tables.getD t none with
    | none =>
      rw [applyOp_exitOp_none s t hg]
      exact hlv
    | some te =>
      rw [applyOp_exitOp_some s t te hg]
      refine ⟨List.Nodup.erase t hlv.1, fun t2 => ?_⟩
      show (∃ te2, (s.tables.set t none).getD t2 none = some te2 ∧ 0 < te2.elementsCapacity)
        ↔ t2 ∈ s.live.erase t
      by_cases ht2 : t2 = t
      · subst ht2
        have hnone : (s.tables.set t2 none).getD t2 none = none := by
          by_cases htl : t2 < s.tables.length
          · exact getD_set_self s.tables t2 none none htl
          · rw [List.getD_eq_default]
            rw [List.length_set]
            omega
        rw [hnone]
        constructor
        · rintro ⟨te2, hte2, _⟩
          cases hte2
        · intro hmem
          obtain ⟨hne, _⟩ := (List.Nodup.mem_erase_iff hlv.1).mp hmem
          exact absurd rfl hne
      · rw [getD_set_ne s.tables t t2 none none (fun he => ht2 he.symm)]
        rw [List.Nodup.mem_erase_iff hlv.1]
        constructor
        · intro hex
          exact ⟨ht2, (hlv.2 t2).mp hex⟩
        · intro hmem
          exact (hlv.2 t2).mpr hmem.2

theorem IdInv_init : IdInv initSys := by
  refine ⟨?_, ?_, ?_, ?_, List.nodup_nil, Nat.le_refl 1⟩
  · intro i j _ h1 _
    exact absurd rfl h1
  · intro i h1
    exact absurd rfl h1
  · intro id hid
    cases hid
  · intro id hid
    cases hid

theorem LiveInv_init : LiveInv initSys := by
  refine ⟨List.nodup_nil, fun t => ?_⟩
  constructor
  · rintro ⟨te, hte, _⟩
    cases hte
  · intro hmem
    cases hmem

theorem IdInv_applyOps (ops : List Op) :
    ∀ s : Sys, IdInv s → s.nextId_ + ops.length ≤ 2 ^ 32 - 1 →
      IdInv (applyOps s ops) := by
  induction ops with
  | nil => exact fun s hinv _ => hinv
  | cons op ops ih =>
    intro s hinv hlen
    show IdInv (applyOps (applyOp s op) ops)
    refine ih (applyOp s op) (IdInv_applyOp s op hinv (by simp at hlen; omega)) ?_
    have := nextId_applyOp s op
    simp at hlen
    omega

theorem Invs_applyOps (ops : List Op) :
    ∀ s : Sys, IdInv s → LiveInv s → s.nextId_ + ops.length ≤ 2 ^ 32 - 5 →
      IdInv (applyOps s ops) ∧ LiveInv (applyOps s ops) := by
  induction ops with
  | nil => exact fun s hid hlv _ => ⟨hid, hlv⟩
  | cons op ops ih =>
    intro s hid hlv hlen
    show IdInv (applyOps (applyOp s op) ops) ∧ LiveInv (applyOps (applyOp s op) ops)
    have hb6 : s.nextId_ ≤ 2 ^ 32 - 6 := by simp at hlen; omega
    refine ih (applyOp s op) (IdInv_applyOp s op hid (by omega))
      (LiveInv_applyOp s op hid hlv hb6) ?_
    have := nextId_applyOp s op
    simp at hlen
    omega

/-- C4 (amended): after any sequence of registry operations short enough
that the `uint32_t` id counter cannot wrap (fewer than `2 ^ 32 - 1` ids
issued; here: at most `2 ^ 32 - 2` operations), ids are pairwise distinct
among currently-assigned handles: no two distinct handles hold the same
valid id. -/
theorem ids_distinct_of_ops_bounded (ops : List Op)
    (hlen : ops.length ≤ 2 ^ 32 - 2) : IdsDistinct (applyOps initSys ops) :=
  (IdInv_applyOps ops initSys IdInv_init (by
    show 1 + ops.length ≤ 2 ^ 32 - 1
    omega)).1

/-- Witness for C4's amended theorem at a concrete four-operation trace. -/
theorem ids_distinct_of_ops_bounded_witness :
    ([Op.newHandle, Op.alloc 0, Op.newHandle, Op.alloc 1] : List Op).length ≤ 2 ^ 32 - 2 ∧
    IdsDistinct (applyOps initSys [Op.newHandle, Op.alloc 0, Op.newHandle, Op.alloc 1]) :=
  ⟨by decide,
   ids_distinct_of_ops_bounded [Op.newHandle, Op.alloc 0, Op.newHandle, Op.alloc 1]
     (by decide)⟩

/-- C9 (amended): after any sequence of registry operations short enough
that no access index can reach the overflowing region of the growth formula
(at most `2 ^ 32 - 6` operations), a table is in the live set exactly when
it exists with positive capacity: the first growth from capacity 0 inserts
it, `destroy` never changes membership, and thread exit removes table and
membership together. -/
theorem live_set_iff_of_ops_bounded (ops : List Op)
    (hlen : ops.length ≤ 2 ^ 32 - 6) : LiveInv (applyOps initSys ops) :=
  (Invs_applyOps ops initSys IdInv_init LiveInv_init (by
    show 1 + ops.length ≤ 2 ^ 32 - 5
    omega)).2

/-- Witness for C9's amended theorem: a thread table grows for id 1 and is
live, then the thread exits and it is gone. -/
theorem live_set_iff_of_ops_bounded_witness :
    ([Op.newThread, Op.newHandle, Op.alloc 0, Op.reserveOp 0 0, Op.exitOp 0] : List Op).length
      ≤ 2 ^ 32 - 6 ∧
    LiveInv (applyOps initSys
      [Op.newThread, Op.newHandle, Op.alloc 0, Op.reserveOp 0 0, Op.exitOp 0]) :=
  ⟨by decide,
   live_set_iff_of_ops_bounded
     [Op.newThread, Op.newHandle, Op.alloc 0, Op.reserveOp 0 0, Op.exitOp 0] (by decide)⟩

theorem getD_range_map {β : Type} (f : Nat → β) (n i : Nat) (d : β) (h : i < n) :
    ((List.range n).map f).getD i d = f i := by
  rw [List.getD_eq_getElem?_getD, List.getElem?_map, List.getElem?_range h]
  rfl

theorem allocStep_concat_fresh (nid h : Nat) (hs : List Nat) (hh : h = hs.length) :
    allocStep ⟨nid, [], hs ++ [kEntryIDInvalid], [], []⟩ h =
      ⟨(nid + 1) % 2 ^ 32, [], hs ++ [nid], [], []⟩ := by
  subst hh
  have hval : handleVal ⟨nid, [], hs ++ [kEntryIDInvalid], [], []⟩ hs.length
      = kEntryIDInvalid := by
    show (hs ++ [kEntryIDInvalid]).getD hs.length kEntryIDInvalid = kEntryIDInvalid
    exact getD_concat_length hs kEntryIDInvalid kEntryIDInvalid
  have hh2 : hs.length < (⟨nid, [], hs ++ [kEntryIDInvalid], [], []⟩ : Sys).handles.length := by
    show hs.length < (hs ++ [kEntryIDInvalid]).length
    simp
  rw [allocStep_fresh ⟨nid, [], hs ++ [kEntryIDInvalid], [], []⟩ hs.length hh2 hval rfl]
  show (⟨(nid + 1) % 2 ^ 32, [], (hs ++ [kEntryIDInvalid]).set hs.length nid, [], []⟩ : Sys) = _
  rw [set_concat_length]

/-- The state after `n` declare-then-allocate pairs: the counter has been
bumped `n` times through its `uint32_t` wrap, handle `i` holds
`(i + 1) % 2 ^ 32`, and the pool stayed empty. -/
theorem traceFresh_state (n : Nat) :
    applyOps initSys (traceFresh n) =
      ⟨(1 + n) % 2 ^ 32, [], (List.range n).map (fun i => (i + 1) % 2 ^ 32), [], []⟩ := by
  induction n with
  | zero => decide
  | succ n ih =>
    have hsplit : applyOps initSys (traceFresh (n + 1)) =
        applyOp (applyOp (applyOps initSys (traceFresh n)) Op.newHandle) (Op.alloc n) := by
      show applyOps initSys (traceFresh n ++ [Op.newHandle, Op.alloc n]) = _
      unfold applyOps
      rw [List.foldl_append]
      rfl
    rw [hsplit, ih, applyOp_newHandle_eq, applyOp_alloc_eq]
    show allocStep ⟨(1 + n) % 2 ^ 32, [],
        (List.range n).map (fun i => (i + 1) % 2 ^ 32) ++ [kEntryIDInvalid], [], []⟩ n = _
    rw [allocStep_concat_fresh ((1 + n) % 2 ^ 32) n
      ((List.range n).map (fun i => (i + 1) % 2 ^ 32)) (by simp)]
    have h1 : ((1 + n) % 2 ^ 32 + 1) % 2 ^ 32 = (1 + (n + 1)) % 2 ^ 32 := by
      rw [Nat.mod_add_mod]
      congr 1
    have h2 : (List.range n).map (fun i => (i + 1) % 2 ^ 32) ++ [(1 + n) % 2 ^ 32]
        = (List.range (n + 1)).map (fun i => (i + 1) % 2 ^ 32) := by
      rw [List.range_succ, List.map_append]
      have h3 : 1 + n = n + 1 := by omega
      rw [h3]
      rfl
    rw [h1, h2]

/-- Counterexample to C4 as universally stated: the id counter is a
`uint32_t`, so after `2 ^ 32 + 1` fresh allocations (each preceded by the
handle's declaration) the counter has wrapped past the sentinel and id 1 is
issued a second time — handles 0 and `2 ^ 32` then both hold the valid
id 1. -/
theorem handleVal_mk (nid : Nat) (fl hs : List Nat) (ts : List (Option ThreadEntry))
    (lv : List Nat) (i : Nat) :
    handleVal ⟨nid, fl, hs, ts, lv⟩ i = hs.getD i kEntryIDInvalid := rfl

theorem ids_distinct_cex :
    ¬ IdsDistinct (applyOps initSys (traceFresh (2 ^ 32 + 1))) := by
  rw [traceFresh_state]
  have h0a : ((List.range (2 ^ 32 + 1)).map (fun i => (i + 1) % 2 ^ 32)).getD 0 kEntryIDInvalid
      = (0 + 1) % 2 ^ 32 :=
    getD_range_map (fun i => (i + 1) % 2 ^ 32) (2 ^ 32 + 1) 0 kEntryIDInvalid (by omega)
  have hNa : ((List.range (2 ^ 32 + 1)).map (fun i => (i + 1) % 2 ^ 32)).getD (2 ^ 32)
      kEntryIDInvalid = (2 ^ 32 + 1) % 2 ^ 32 :=
    getD_range_map (fun i => (i + 1) % 2 ^ 32) (2 ^ 32 + 1) (2 ^ 32) kEntryIDInvalid (by omega)
  generalize hH : (List.range (2 ^ 32 + 1)).map (fun i => (i + 1) % 2 ^ 32) = H
  rw [hH] at h0a hNa
  have h0b : (0 + 1) % 2 ^ 32 = 1 := by decide
  have hNb : (2 ^ 32 + 1) % 2 ^ 32 = 1 := by decide
  intro hd
  have h0 : handleVal ⟨(1 + (2 ^ 32 + 1)) % 2 ^ 32, [], H, [], []⟩ 0 = 1 :=
    (handleVal_mk _ _ H [] [] 0).trans (h0a.trans h0b)
  have hN : handleVal ⟨(1 + (2 ^ 32 + 1)) % 2 ^ 32, [], H, [], []⟩ (2 ^ 32) = 1 :=
    (handleVal_mk _ _ H [] [] (2 ^ 32)).trans (hNa.trans hNb)
  refine hd 0 (2 ^ 32) (by omega) ?_ ?_ (h0.trans hN.symm)
  · rw [h0]
    decide
  · rw [hN]
    decide

theorem applyOp_reserve_grow (s : Sys) (t h : Nat) (te : ThreadEntry)
    (hg : s.tables.getD t none = some te)
    (hh : h < s.handles.length)
    (hval : handleVal s h ≠ kEntryIDInvalid)
    (hcap : ¬ te.elementsCapacity > handleVal s h) :
    applyOp s (Op.reserveOp t h) =
      { s with
          tables := s.tables.set t
            (some (reserveTable false (fun k => k) false te (handleVal s h))),
          live := if te.elementsCapacity = 0 then s.live ++ [t] else s.live } := by
  rw [applyOp_reserveOp_some s t h te hg, if_pos hh, allocStep_valid s h hval, if_neg hcap]

/-- Counterexample to C9 as universally stated: a handle that (after the
counter has run high enough) holds id `2 ^ 32 - 5` makes `reserve`'s
growth formula overflow to capacity 0, so a fresh table is inserted into
the live set with capacity 0. -/
theorem applyOps_append2 (s : Sys) (l : List Op) (a b : Op) :
    applyOps s (l ++ [a, b]) = applyOp (applyOp (applyOps s l) a) b := by
  unfold applyOps
  rw [List.foldl_append]
  rfl

theorem live_set_iff_cex :
    ¬ LiveInv (applyOps initSys
      (traceFresh (2 ^ 32 - 5) ++ [Op.newThread, Op.reserveOp 0 (2 ^ 32 - 6)])) := by
  rw [applyOps_append2 initSys (traceFresh (2 ^ 32 - 5)) Op.newThread
    (Op.reserveOp 0 (2 ^ 32 - 6)), traceFresh_state, applyOp_newThread_eq]
  have hva : ((List.range (2 ^ 32 - 5)).map (fun i => (i + 1) % 2 ^ 32)).getD (2 ^ 32 - 6)
      kEntryIDInvalid = (2 ^ 32 - 6 + 1) % 2 ^ 32 :=
    getD_range_map (fun i => (i + 1) % 2 ^ 32) (2 ^ 32 - 5) (2 ^ 32 - 6) kEntryIDInvalid
      (by omega)
  have hlenH : ((List.range (2 ^ 32 - 5)).map (fun i => (i + 1) % 2 ^ 32)).length
      = 2 ^ 32 - 5 := by
    rw [List.length_map, List.length_range]
  generalize hH : (List.range (2 ^ 32 - 5)).map (fun i => (i + 1) % 2 ^ 32) = H
  rw [hH] at hva hlenH
  have hvb : (2 ^ 32 - 6 + 1) % 2 ^ 32 = 2 ^ 32 - 5 := by decide
  show ¬ LiveInv (applyOp (⟨(1 + (2 ^ 32 - 5)) % 2 ^ 32, [], H,
      [some ⟨[], 0, true⟩], []⟩ : Sys) (Op.reserveOp 0 (2 ^ 32 - 6)))
  have hval0 : handleVal (⟨(1 + (2 ^ 32 - 5)) % 2 ^ 32, [], H,
      [some ⟨[], 0, true⟩], []⟩ : Sys) (2 ^ 32 - 6) = 2 ^ 32 - 5 :=
    (handleVal_mk _ _ H _ [] (2 ^ 32 - 6)).trans (hva.trans hvb)
  rw [applyOp_reserve_grow (⟨(1 + (2 ^ 32 - 5)) % 2 ^ 32, [], H,
      [some ⟨[], 0, true⟩], []⟩ : Sys) 0 (2 ^ 32 - 6) ⟨[], 0, true⟩ rfl
    (by
      show 2 ^ 32 - 6 < H.length
      rw [hlenH]
      omega)
    (by rw [hval0]; decide)
    (by rw [hval0]; decide), hval0]
  have hres : reserveTable false (fun k => k) false (⟨[], 0, true⟩ : ThreadEntry) (2 ^ 32 - 5)
      = ⟨[], 0, true⟩ := by decide
  rw [hres]
  show ¬ LiveInv ⟨(1 + (2 ^ 32 - 5)) % 2 ^ 32, [], H, [some ⟨[], 0, true⟩], [0]⟩
  intro hlv
  obtain ⟨te2, hte2, hc2⟩ := (hlv.2 0).mpr (List.mem_singleton.mpr rfl)
  have hte3 : (⟨[], 0, true⟩ : ThreadEntry) = te2 := Option.some.inj hte2
  rw [← hte3] at hc2
  simp at hc2
